import Mathlib

/-!
Verification development for the droidwook word-covering engine
(`droidwook.py`).  The Python source is embedded shallowly: strings become
`List Char`, Python `dict`s become association lists (which preserve the
insertion-order behaviour the source relies on), generators become functions
returning the list of yielded values, and code paths that can raise become
`Except`-valued functions.  Python's `int` is embedded as `Int`.
-/

/-- `string.ascii_lowercase`. -/
def asciiLowercase : List Char := "abcdefghijklmnopqrstuvwxyz".toList

/-- `is_letter` (droidwook.py line 13): membership in `string.ascii_lowercase`. -/
def is_letter (c : Char) : Bool := asciiLowercase.contains c

/-- `LetterInventory` (line 18): the `letters` dict, keys in insertion order. -/
structure LetterInventory where
  letters : List (Char × Int)
deriving DecidableEq, Repr

/-- `LetterInventory.__init__` (line 21): an empty dict for the empty word,
otherwise one entry per lowercase letter with that letter's count in the word. -/
def LetterInventory.ofWord (word : List Char) : LetterInventory :=
  if word = [] then ⟨[]⟩
  else ⟨asciiLowercase.map (fun c => (c, (word.count c : Int)))⟩

/-- `LetterInventory.get` (line 28): `self.letters[letter]`; `none` models the
`KeyError` raised when the key is absent. -/
def LetterInventory.get (inv : LetterInventory) (c : Char) : Option Int :=
  List.lookup c inv.letters

/-- The loop of `LetterInventory.sub` (lines 43-47).  `Except.error ()` models
an escaping `KeyError`, `Except.ok none` the early `return None`. -/
def LetterInventory.subAux (a b : LetterInventory) :
    List Char → List (Char × Int) → Except Unit (Option (List (Char × Int)))
  | [], acc => Except.ok (some acc)
  | c :: rest, acc =>
    match a.get c, b.get c with
    | some x, some y =>
      if x - y < 0 then Except.ok none
      else LetterInventory.subAux a b rest (acc ++ [(c, x - y)])
    | _, _ => Except.error ()

/-- `LetterInventory.sub` (line 36). -/
def LetterInventory.sub (a b : LetterInventory) : Except Unit (Option LetterInventory) :=
  if b.letters.length > a.letters.length then Except.ok none
  else (LetterInventory.subAux a b asciiLowercase []).map (Option.map LetterInventory.mk)

/-- Per-position letter map: a Python dict from letter to list of indices,
kept as an association list in insertion order. -/
abbrev LMap := List (Char × List Nat)

/-- Dict lookup in an `LMap`. -/
def lmapLookup (m : LMap) (c : Char) : Option (List Nat) := List.lookup c m

/-- Lines 81-84 of `make_letter_maps`: append `i` to `c`'s list if the key
exists (keeping its dict position), otherwise insert the key at the end. -/
def lmapAppend (m : LMap) (c : Char) (i : Nat) : LMap :=
  if (lmapLookup m c).isSome then
    m.map (fun e => if e.1 == c then (e.1, e.2 ++ [i]) else e)
  else m ++ [(c, [i])]

/-- One step of the `make_letter_maps` loop at position `i` holding `ch`,
given the state `(last, lastLetter, lastIndex)` from the positions to the
right (`none` when no letter has been seen yet).  Returns the entry for
position `i` and the new state. -/
def mlmEntry (st : Option (LMap × Char × Nat)) (i : Nat) (ch : Char) :
    Option LMap × Option (LMap × Char × Nat) :=
  if is_letter ch then
    match st with
    | none => (some [], some ([], ch, i))
    | some (last, lastLetter, lastIndex) =>
      let m := lmapAppend last lastLetter lastIndex
      (some m, some (m, ch, i))
  else (none, st)

/-- The loop of `make_letter_maps` (lines 74-89) for the suffix of the phrase
starting at absolute position `i`, iterating right to left (the recursion
computes the right part first, exactly like the `range(len-1, -1, -1)` loop). -/
def mlmGo : List Char → Nat → List (Option LMap) × Option (LMap × Char × Nat)
  | [], _ => ([], none)
  | ch :: rest, i =>
    let st := (mlmGo rest (i + 1)).2
    let e := mlmEntry st i ch
    (e.1 :: (mlmGo rest (i + 1)).1, e.2)

/-- `make_letter_maps` (line 66). -/
def make_letter_maps (phrase : List Char) : List (Option LMap) :=
  (mlmGo phrase 0).1

/-- The loop of `trim_dictionary` (lines 159-161) over the words paired with
their inventories. -/
def trim_dictionary_aux (inventory : LetterInventory) :
    List (List Char × LetterInventory) → Except Unit (List (List Char))
  | [] => Except.ok []
  | (w, wi) :: rest =>
    match inventory.sub wi with
    | Except.error e => Except.error e
    | Except.ok none => trim_dictionary_aux inventory rest
    | Except.ok (some _) => (trim_dictionary_aux inventory rest).map (fun l => w :: l)

/-- `trim_dictionary` (line 149).  The Python precondition that
`dictionary_inventories` has the same length as `dictionary` is reflected by
zipping the two lists. -/
def trim_dictionary (phrase : List Char) (dictionary : List (List Char))
    (invs : List LetterInventory) : Except Unit (List (List Char)) :=
  trim_dictionary_aux (LetterInventory.ofWord phrase) (dictionary.zip invs)

/-- `next_index` (line 165): one past the last index of a placement.  The
source evaluates `word[-1]`, only ever on non-empty placements. -/
def next_index (word : List Nat) : Nat := word.getLastD 0 + 1

/-- `MatchResults` (line 170).  `words` maps each phrase position to the list
of placements starting there (`none` at non-letter positions). -/
structure MatchResults where
  original_phrase : List Char
  phrase : List Char
  count : Int
  allow_less : Bool
  words_only : Bool
  words : List (Option (List (List Nat)))
  maps : List (Option LMap)
  initial_map : LMap
deriving DecidableEq, Repr

/-- All positions of the case-folded phrase holding character `c`, in
increasing order: the list built for `c` by the `initial_map` loop of
`MatchResults.__init__` (lines 187-193). -/
def allOccs (low : List Char) (c : Char) : List Nat :=
  (List.range low.length).filter (fun i => low.getD i ' ' == c)

/-- The `initial_map` dict of `MatchResults.__init__` (lines 186-193): keys in
alphabet order, only for letters that occur, each mapped to all its positions
in increasing order. -/
def initial_map_of (low : List Char) : LMap :=
  asciiLowercase.filterMap (fun c =>
    if (allOccs low c).isEmpty then none else some (c, allOccs low c))

/-- `MatchResults.__init__` (line 177). -/
def MatchResults.init (phrase : List Char) (cnt : Int) (allow_less : Bool) : MatchResults :=
  let low := phrase.map Char.toLower
  { original_phrase := phrase
    phrase := low
    count := cnt
    allow_less := allow_less
    words_only := false
    words := low.map (fun ch => if is_letter ch then some [] else none)
    maps := make_letter_maps low
    initial_map := initial_map_of low }

/-- `MatchResults.add_match` (line 200) with `print_results` left at its
default `False`, as in every call made by `print_matches`:
`self.words[index].append(indices)`.  The source would raise on a `None`
entry; that path is unreachable from `print_matches` and is modelled as
appending to an empty list. -/
def MatchResults.add_match (m : MatchResults) (indices : List Nat) (index : Nat) :
    MatchResults :=
  { m with words := m.words.set index (some (((m.words.getD index none).getD []) ++ [indices])) }

/-- The placements stored at position `i` of a `words` table. -/
def storedAt (words : List (Option (List (List Nat)))) (i : Nat) : List (List Nat) :=
  (words.getD i none).getD []

/-- The emission test of `_iterate_matches` (lines 224-225), applied to the
stack length after the push. -/
def shouldEmit (cnt : Int) (allow_less : Bool) (n : Nat) : Bool :=
  (allow_less && decide ((n : Int) < cnt)) || decide (cnt < 1) || decide ((n : Int) = cnt)

/-- The recursion test of `_iterate_matches` (line 227), applied to the stack
length after the push. -/
def shouldContinue (cnt : Int) (n : Nat) : Bool :=
  decide (cnt < 1) || decide ((n : Int) < cnt)

/-- `MatchResults._iterate_matches` (line 216) as a function from the mutable
state to the list of yielded stacks.  `len(self.phrase)` equals
`words.length`, since `__init__` builds one `words` entry per phrase
character; the `if word_list is not None` guard and the loop over `word_list`
are together a loop over `storedAt words index`, since a `None` entry and an
empty list both yield no iterations.
The extra `fuel` argument dominates the recursion depth; every
call made by `iterate_all_matches` supplies enough of it (the depth is bounded
by the phrase length, proved below). -/
def iterate_matches_aux (words : List (Option (List (List Nat)))) (cnt : Int)
    (al : Bool) : Nat → Nat → List (List Nat) → List (List (List Nat))
  | 0, _, _ => []
  | fuel + 1, index, cw =>
    (storedAt words index).flatMap (fun word =>
      (if shouldEmit cnt al (cw ++ [word]).length then [cw ++ [word]] else []) ++
      (if shouldContinue cnt (cw ++ [word]).length then
        (List.range' (next_index word) (words.length - next_index word)).flatMap
          (fun j => iterate_matches_aux words cnt al fuel j (cw ++ [word]))
       else []))

/-- `MatchResults.iterate_matches` (line 233): `_iterate_matches(index, [])`. -/
def iterate_matches (words : List (Option (List (List Nat)))) (cnt : Int)
    (al : Bool) (index : Nat) : List (List (List Nat)) :=
  iterate_matches_aux words cnt al (words.length + 1) index []

/-- `MatchResults.iterate_all_matches` (line 241) with an explicit fuel. -/
def iterate_all_matches_fuel (words : List (Option (List (List Nat)))) (cnt : Int)
    (al : Bool) (fuel : Nat) : List (List (List Nat)) :=
  (List.range words.length).flatMap (fun i => iterate_matches_aux words cnt al fuel i [])

/-- `MatchResults.iterate_all_matches` (line 241): seed `_iterate_matches` at
every start position. -/
def iterate_all_matches (words : List (Option (List (List Nat)))) (cnt : Int)
    (al : Bool) : List (List (List Nat)) :=
  (List.range words.length).flatMap (fun i => iterate_matches words cnt al i)

/-- The push-event trace of `_iterate_matches`: one `(stack after push,
emitted?)` pair per execution of line 223, in execution order. -/
def iterate_events_aux (words : List (Option (List (List Nat)))) (cnt : Int)
    (al : Bool) : Nat → Nat → List (List Nat) → List (List (List Nat) × Bool)
  | 0, _, _ => []
  | fuel + 1, index, cw =>
    (storedAt words index).flatMap (fun word =>
      (cw ++ [word], shouldEmit cnt al (cw ++ [word]).length) ::
      (if shouldContinue cnt (cw ++ [word]).length then
        (List.range' (next_index word) (words.length - next_index word)).flatMap
          (fun j => iterate_events_aux words cnt al fuel j (cw ++ [word]))
       else []))

/-- The push-event trace of the whole `iterate_all_matches` enumeration. -/
def iterate_all_events (words : List (Option (List (List Nat)))) (cnt : Int)
    (al : Bool) : List (List (List Nat) × Bool) :=
  (List.range words.length).flatMap
    (fun i => iterate_events_aux words cnt al (words.length + 1) i [])

/-- `WordMatcher._print_word_matches` (line 265), recursing on the unread
suffix of the word (Python's `word_index` cursor).  `indices` accumulates the
matched positions; reaching the end of the word stores the placement via
`add_match`.  A missing key in the letter map leaves the state unchanged. -/
def print_word_matches_aux (maps : List (Option LMap)) (start_index : Nat) :
    List Char → Nat → List Nat → MatchResults → MatchResults
  | [], _, indices, ws => ws.add_match indices start_index
  | ch :: wrest, index, indices, ws =>
    match lmapLookup ((maps.getD index none).getD []) ch with
    | none => ws
    | some l =>
      l.foldl (fun acc i =>
        print_word_matches_aux maps start_index wrest i (indices ++ [i]) acc) ws

/-- The body of the dictionary loop of `WordMatcher.print_matches`
(lines 294-298): seed `_print_word_matches` at every occurrence of the word's
first letter. -/
def process_word (ws : MatchResults) (word : List Char) : MatchResults :=
  match lmapLookup ws.initial_map (word.headD ' ') with
  | none => ws
  | some next_indices =>
    next_indices.foldl (fun acc i =>
      print_word_matches_aux acc.maps i (word.drop 1) i [i] acc) ws

/-- `WordMatcher.print_matches` (line 282) up to and including the placement
search: `set_dict` lower-cases the dictionary and builds its inventories,
`trim_dictionary` filters it (propagating the `KeyError` its helper can
raise), and the loop over the trimmed dictionary fills in `words`.  The value
returned is the fully populated `MatchResults` the display loop then reads. -/
def print_matches_results (dictionary : List (List Char)) (phrase : List Char)
    (cnt : Int) (al : Bool) : Except Unit MatchResults :=
  let m := MatchResults.init phrase cnt al
  let dict2 := dictionary.map (fun w => w.map Char.toLower)
  let invs := dict2.map LetterInventory.ofWord
  (trim_dictionary m.phrase dict2 invs).map (fun trimmed => trimmed.foldl process_word m)

/-- Following the words of claim C10: the same placement search run over the
full, untrimmed dictionary. -/
def find_combinations_full (dictionary : List (List Char)) (phrase : List Char)
    (cnt : Int) (al : Bool) : MatchResults :=
  (dictionary.map (fun w => w.map Char.toLower)).foldl process_word
    (MatchResults.init phrase cnt al)

/-- The Python exceptions relevant to `main`'s dictionary handling.  `open`
raises `FileNotFoundError` for a missing file and other `OSError`s (for
example `PermissionError`) for a file that exists but cannot be read;
`LetterInventory.sub` can raise `KeyError`. -/
inductive PyError where
  | fileNotFound
  | permissionDenied
  | keyError
deriving DecidableEq, Repr

/-- The observable outcome of `main` on the phrase-supplied branch. -/
inductive MainOutcome where
  | returnedNormally (reportedDictError : Bool)
  | uncaughtException (e : PyError)
deriving DecidableEq, Repr

/-- `main` (lines 330-342) when a phrase is supplied: the result of reading
the dictionary file is passed in as `readResult`.  Only `FileNotFoundError`
is caught (lines 335-339); any other exception, from the read or from
`print_matches`, escapes. -/
def main_with_phrase (readResult : Except PyError (List (List Char)))
    (phrase : List Char) (cnt : Int) (al : Bool) : MainOutcome :=
  match readResult with
  | Except.error PyError.fileNotFound => MainOutcome.returnedNormally true
  | Except.error e => MainOutcome.uncaughtException e
  | Except.ok dict =>
    match print_matches_results dict phrase cnt al with
    | Except.error _ => MainOutcome.uncaughtException PyError.keyError
    | Except.ok _ => MainOutcome.returnedNormally false

/-- Executable check that a list of indices is strictly increasing
(equivalent to `List.Chain' (fun a b => a < b)`, proved below). -/
def strictIncr : List Nat → Bool
  | [] => true
  | [_] => true
  | a :: b :: t => decide (a < b) && strictIncr (b :: t)

/-- Executable check of the non-overlap chain condition between consecutive
placements (equivalent to `List.Chain' (fun p q => p.getLastD 0 < q.headD 0)`,
proved below). -/
def comboChain : List (List Nat) → Bool
  | [] => true
  | [_] => true
  | p :: q :: rest => decide (p.getLastD 0 < q.headD 0) && comboChain (q :: rest)

/-- The well-formedness invariant `print_matches` establishes for the `words`
table: every stored placement starts at the position it is stored under and
its indices are strictly increasing. -/
def WordsInv (words : List (Option (List (List Nat)))) : Prop :=
  ∀ i ∈ List.range words.length, ∀ p ∈ storedAt words i,
    p.head? = some i ∧ strictIncr p = true

/-- Per-position duplicate freedom of the stored placements. -/
def WordsNodup (words : List (Option (List (List Nat)))) : Prop :=
  ∀ i ∈ List.range words.length, (storedAt words i).Nodup

instance (words : List (Option (List (List Nat)))) : Decidable (WordsInv words) :=
  inferInstanceAs (Decidable (∀ i ∈ List.range words.length, ∀ p ∈ storedAt words i,
    p.head? = some i ∧ strictIncr p = true))

instance (words : List (Option (List (List Nat)))) : Decidable (WordsNodup words) :=
  inferInstanceAs (Decidable (∀ i ∈ List.range words.length, (storedAt words i).Nodup))

/-- A combination in the sense of the specification: a non-empty sequence of
stored placements in which each next placement's first index is strictly
greater than the previous placement's last index. -/
def validCombo (words : List (Option (List (List Nat)))) (c : List (List Nat)) : Bool :=
  !c.isEmpty &&
  c.all (fun p => decide (p ∈ storedAt words (p.headD 0))) &&
  comboChain c

/-- The chain predicate threaded through the enumeration: every element of
`c` is stored at its own first index, and each element's first index is at
least `lo` (resp. past the previous element). -/
def chainRest (words : List (Option (List (List Nat)))) : Nat → List (List Nat) → Bool
  | _, [] => true
  | lo, q :: rest =>
    decide (lo ≤ q.headD 0) && decide (q ∈ storedAt words (q.headD 0)) &&
      chainRest words (next_index q) rest

/-- A non-empty chain whose first element is stored at position `i`. -/
def chainFrom (words : List (Option (List (List Nat)))) (i : Nat) :
    List (List Nat) → Bool
  | [] => false
  | p :: rest =>
    decide (p ∈ storedAt words i) && chainRest words (next_index p) rest

/-- The positions strictly after `i` holding character `c`, in the decreasing
order in which `make_letter_maps` accumulates them. -/
def laterOccs (ph : List Char) (i : Nat) (c : Char) : List Nat :=
  ((List.range ph.length).filter (fun p => decide (i < p) && (ph.getD p ' ' == c))).reverse

/-- A letter-map entry is correct for position `i`: it maps each letter with
occurrences after `i` to exactly its `laterOccs` list and has no other keys. -/
def entryCorrect (ph : List Char) (i : Nat) (m : LMap) : Prop :=
  ∀ c, lmapLookup m c =
    if is_letter c = true ∧ laterOccs ph i c ≠ [] then some (laterOccs ph i c) else none

/-- Correctness of the `make_letter_maps` loop state before processing
position `i - 1`: `none` when no letter occurs at a position `≥ i`, otherwise
the entry, character and position of the leftmost letter at a position `≥ i`. -/
def stCorrect (ph : List Char) (i : Nat) : Option (LMap × Char × Nat) → Prop
  | none => ∀ p, i ≤ p → p < ph.length → is_letter (ph.getD p ' ') = false
  | some (m, ch, j) => i ≤ j ∧ j < ph.length ∧ ph.getD j ' ' = ch ∧ is_letter ch = true ∧
      (∀ p, i ≤ p → p < j → is_letter (ph.getD p ' ') = false) ∧ entryCorrect ph j m

/-- A placement `p` spells the word `w` in the case-folded phrase `low`:
strictly increasing positions, in range, reading off exactly `w`. -/
def spells (low : List Char) (p : List Nat) (w : List Char) : Prop :=
  List.Chain' (· < ·) p ∧ (∀ x ∈ p, x < low.length) ∧
    p.map (fun j => low.getD j ' ') = w

/-- The `MatchResults` state the search builds for the specification's example
phrase `"a a"` with dictionary `{"a"}`, `count = 2`, `allow_less = False`. -/
def aaResults : MatchResults :=
  match print_matches_results [['a']] ['a', ' ', 'a'] 2 false with
  | Except.ok m => m
  | Except.error _ => MatchResults.init [] 0 false

/-- What it means for the placement `p` stored at table position `i` to be
well formed with spelling allowed by `A`: it starts at `i`, is strictly
increasing and in range, and reads off a word satisfying `A`. -/
def placementOK (low : List Char) (A : List Char → Prop) (i : Nat) (p : List Nat) : Prop :=
  p.head? = some i ∧ List.Chain' (· < ·) p ∧ (∀ x ∈ p, x < low.length) ∧
    A (p.map (fun jj => low.getD jj ' '))

/-- Every placement stored anywhere in the table is well formed. -/
def GoodWords (low : List Char) (A : List Char → Prop)
    (words : List (Option (List (List Nat)))) : Prop :=
  ∀ i, ∀ p ∈ storedAt words i, placementOK low A i p

/-! ### Generic list helpers -/

theorem getD_append_add {α : Type} (pre l : List α) (d : α) (k : Nat) :
    (pre ++ l).getD (pre.length + k) d = l.getD k d := by
  induction pre with
  | nil => simp
  | cons a pre ih =>
    have h : (a :: pre).length + k = (pre.length + k) + 1 := by simp; omega
    rw [h]
    simpa using ih

theorem getD_set_self {α : Type} (l : List α) (i : Nat) (a d : α) (h : i < l.length) :
    (l.set i a).getD i d = a := by
  induction l generalizing i with
  | nil => simp at h
  | cons b t ih =>
    cases i with
    | zero => simp
    | succ j => simpa using ih j (by simpa using h)

theorem getD_set_ne {α : Type} (l : List α) (i j : Nat) (a d : α) (h : i ≠ j) :
    (l.set i a).getD j d = l.getD j d := by
  induction l generalizing i j with
  | nil => simp
  | cons b t ih =>
    cases i with
    | zero =>
      cases j with
      | zero => exact absurd rfl h
      | succ j2 => simp
    | succ i2 =>
      cases j with
      | zero => simp
      | succ j2 => simpa using ih i2 j2 (by omega)

theorem flatMap_congr {α β : Type} (l : List α) (f g : α → List β)
    (h : ∀ x ∈ l, f x = g x) : l.flatMap f = l.flatMap g := by
  induction l with
  | nil => rfl
  | cons a t ih =>
    simp only [List.flatMap_cons]
    rw [h a (by simp), ih (fun x hx => h x (by simp [hx]))]

theorem count_flatMap {α β : Type} [BEq β] (l : List α) (f : α → List β) (b : β) :
    (l.flatMap f).count b = (l.map (fun x => (f x).count b)).sum := by
  induction l with
  | nil => rfl
  | cons a t ih => simp [List.flatMap_cons, List.count_append, ih]

theorem filterMap_flatMap {α β γ : Type} (l : List α) (f : α → List β) (g : β → Option γ) :
    (l.flatMap f).filterMap g = l.flatMap (fun x => (f x).filterMap g) := by
  induction l with
  | nil => rfl
  | cons a t ih => simp [List.flatMap_cons, List.filterMap_append, ih]

theorem foldl_preserve {α β : Type} (P : α → Prop) (step : α → β → α) (l : List β)
    (init : α) (hstep : ∀ acc x, x ∈ l → P acc → P (step acc x)) (hinit : P init) :
    P (l.foldl step init) := by
  induction l generalizing init with
  | nil => exact hinit
  | cons x t ih =>
    exact ih (step init x) (fun acc y hy => hstep acc y (by simp [hy]))
      (hstep init x (by simp) hinit)

theorem foldl_fix {α β : Type} (step : α → β → α) (l : List β) (init : α)
    (h : ∀ acc x, x ∈ l → step acc x = acc) : l.foldl step init = init := by
  induction l generalizing init with
  | nil => rfl
  | cons x t ih =>
    rw [List.foldl_cons, h init x (by simp)]
    exact ih init (fun acc y hy => h acc y (by simp [hy]))

theorem sum_map_single {α : Type} [BEq α] [LawfulBEq α] (l : List α) (g : α → Nat)
    (p : α) (h : ∀ x, x ≠ p → g x = 0) :
    (l.map g).sum = l.count p * g p := by
  induction l with
  | nil => simp
  | cons a t ih =>
    by_cases hap : a = p
    · subst hap
      simp [List.count_cons, ih, Nat.add_mul, Nat.add_comm]
    · simp [List.count_cons, hap, h a hap, ih]

theorem sum_map_range'_single (a b : Nat) (g : Nat → Nat) (j : Nat)
    (h : ∀ x, x ≠ j → g x = 0) :
    ((List.range' a b).map g).sum = if a ≤ j ∧ j < a + b then g j else 0 := by
  induction b generalizing a with
  | zero =>
    simp only [List.range'_zero, List.map_nil, List.sum_nil]
    rw [if_neg]
    omega
  | succ b2 ih =>
    rw [List.range'_succ]
    simp only [List.map_cons, List.sum_cons]
    rw [ih (a + 1)]
    by_cases haj : a = j
    · subst haj
      rw [if_neg (by omega), if_pos (by omega)]
      omega
    · rw [h a haj]
      by_cases hcond : a + 1 ≤ j ∧ j < a + 1 + b2
      · rw [if_pos hcond, if_pos (by omega)]
        omega
      · rw [if_neg hcond, if_neg (by omega)]

theorem count_singleton_list {α : Type} [DecidableEq α] [BEq α] [LawfulBEq α] (x y : α) :
    List.count x [y] = if y = x then 1 else 0 := by
  simp [List.count_cons]

theorem count_map_cons {α : Type} [DecidableEq α] [BEq α] [LawfulBEq α] (L : List (List α))
    (b a : α) (t : List α) :
    (L.map (fun d => b :: d)).count (a :: t) = if b = a then L.count t else 0 := by
  rw [List.count_eq_countP, List.countP_map]
  by_cases hba : b = a
  · subst hba
    rw [if_pos rfl, List.count_eq_countP]
    apply List.countP_congr
    intro x _
    simp
  · rw [if_neg hba]
    rw [List.countP_eq_zero.mpr]
    intro d _
    simp only [Function.comp_apply, beq_iff_eq, List.cons_eq_cons]
    rintro ⟨h1, _⟩
    exact hba h1

theorem count_nodup {α : Type} [DecidableEq α] [BEq α] [LawfulBEq α] (l : List α) (p : α)
    (h : l.Nodup) : l.count p = if p ∈ l then 1 else 0 := by
  induction l with
  | nil => simp
  | cons a t ih =>
    rcases List.nodup_cons.mp h with ⟨hnot, ht⟩
    simp only [List.count_cons, ih ht, List.mem_cons]
    by_cases hap : a = p
    · subst hap
      simp [hnot]
    · simp [beq_iff_eq, hap, Ne.symm hap]

/-! ### C7: an empty dictionary word crashes the search -/

/-- C7: the claim says a dictionary containing the empty word yields no
placements for it without raising.  In the code, `LetterInventory("")` has an
empty `letters` dict, so `inventory.sub` evaluates `other.get(letter)` on an
empty dict and raises `KeyError`: `trim_dictionary` and hence the whole
search fail on phrase `"a"` with the empty word present. -/
theorem C7_empty_word_raises :
    trim_dictionary ['a'] [[]] [LetterInventory.ofWord []] = Except.error () ∧
    print_matches_results [['a'], []] ['a'] 0 true = Except.error () := by
  constructor
  · rfl
  · rfl

/-! ### C9: only FileNotFoundError is caught around the dictionary load -/

/-- C9 (counterexample): the claim says any unreadable dictionary source is
reported and never fatal.  `main` catches only `FileNotFoundError`
(lines 335-339); a dictionary that exists but cannot be read raises
`PermissionError`, which escapes and kills the process. -/
theorem C9_unreadable_not_caught :
    main_with_phrase (Except.error PyError.permissionDenied) ['a'] 0 true =
      MainOutcome.uncaughtException PyError.permissionDenied := by
  rfl

/-- C9 (amended): when the dictionary file is missing (`FileNotFoundError`),
`main` prints the error report and returns normally, for every phrase and
search parameters. -/
theorem C9_missing_file_recovers (phrase : List Char) (cnt : Int) (al : Bool) :
    main_with_phrase (Except.error PyError.fileNotFound) phrase cnt al =
      MainOutcome.returnedNormally true := by
  rfl

/-! ### C5: the letter-map structure -/

/-- C5 (counterexample): the claim says entry `i` maps each letter to the
letter-positions `≥ i` holding it, and that there is an entry at position N.
For the phrase `"ab"`, entry 0 has no key `'a'` at all (the maps only record
positions strictly greater than the entry's own), and the structure has
length 2, not 3. -/
theorem C5_entry_zero_omits_own_position :
    lmapLookup (((make_letter_maps ['a', 'b']).getD 0 none).getD []) 'a' = none ∧
    (make_letter_maps ['a', 'b']).length = 2 := by
  constructor
  · rfl
  · rfl

/-! ### Basic facts about the stored-placement table and the enumerator -/

theorem strictIncr_iff (l : List Nat) :
    strictIncr l = true ↔ List.Chain' (· < ·) l := by
  induction l with
  | nil => simp [strictIncr]
  | cons a t ih =>
    cases t with
    | nil => simp [strictIncr]
    | cons b t2 =>
      simp only [strictIncr, Bool.and_eq_true, decide_eq_true_eq, List.chain'_cons]
      rw [ih]

theorem comboChain_iff (c : List (List Nat)) :
    comboChain c = true ↔ List.Chain' (fun p q => p.getLastD 0 < q.headD 0) c := by
  induction c with
  | nil => simp [comboChain]
  | cons p t ih =>
    cases t with
    | nil => simp [comboChain]
    | cons q t2 =>
      simp only [comboChain, Bool.and_eq_true, decide_eq_true_eq, List.chain'_cons]
      rw [ih]

theorem storedAt_eq_nil (words : List (Option (List (List Nat)))) (i : Nat)
    (h : words.length ≤ i) : storedAt words i = [] := by
  unfold storedAt
  rw [List.getD_eq_default _ _ h]
  rfl

theorem lt_length_of_mem_storedAt {words : List (Option (List (List Nat)))} {i : Nat}
    {p : List Nat} (h : p ∈ storedAt words i) : i < words.length := by
  by_contra hlt
  rw [storedAt_eq_nil words i (by omega)] at h
  exact absurd h (List.not_mem_nil p)

theorem wordsInv_spec {words : List (Option (List (List Nat)))} (h : WordsInv words) :
    ∀ i, ∀ p ∈ storedAt words i, p.head? = some i ∧ List.Chain' (· < ·) p := by
  intro i p hp
  rcases h i (List.mem_range.mpr (lt_length_of_mem_storedAt hp)) p hp with ⟨h1, h2⟩
  exact ⟨h1, (strictIncr_iff p).mp h2⟩

theorem chain_head_le_getLastD : ∀ (t : List Nat) (a : Nat),
    List.Chain' (· < ·) (a :: t) → a ≤ (a :: t).getLastD 0 := by
  intro t
  induction t with
  | nil => intro a _; simp [List.getLastD]
  | cons b t2 ih =>
    intro a hch
    rcases List.chain'_cons.mp hch with ⟨hab, hbt⟩
    have h1 : a ≤ (b :: t2).getLastD 0 := le_trans (le_of_lt hab) (ih b hbt)
    simpa [List.getLastD_cons] using h1

theorem stored_head_eq {words : List (Option (List (List Nat)))} (hinv : WordsInv words)
    {i : Nat} {p : List Nat} (hp : p ∈ storedAt words i) : p.headD 0 = i := by
  rcases wordsInv_spec hinv i p hp with ⟨hhead, _⟩
  cases p with
  | nil => simp at hhead
  | cons a t =>
    simp only [List.head?_cons, Option.some.injEq] at hhead
    simp [hhead]

theorem stored_lt_next {words : List (Option (List (List Nat)))} (hinv : WordsInv words)
    {i : Nat} {p : List Nat} (hp : p ∈ storedAt words i) : i < next_index p := by
  rcases wordsInv_spec hinv i p hp with ⟨hhead, hch⟩
  cases p with
  | nil => simp at hhead
  | cons a t =>
    simp only [List.head?_cons, Option.some.injEq] at hhead
    subst hhead
    have := chain_head_le_getLastD t a hch
    unfold next_index
    omega

theorem shouldEmit_of_lt_one {cnt : Int} (h : cnt < 1) (al : Bool) (n : Nat) :
    shouldEmit cnt al n = true := by
  simp [shouldEmit]
  omega

theorem shouldContinue_of_lt_one {cnt : Int} (h : cnt < 1) (n : Nat) :
    shouldContinue cnt n = true := by
  simp [shouldContinue]
  omega

theorem mem_iterate_aux_length (words : List (Option (List (List Nat)))) (cnt : Int)
    (al : Bool) : ∀ fuel index cw c, c ∈ iterate_matches_aux words cnt al fuel index cw →
    cw.length < c.length := by
  intro fuel
  induction fuel with
  | zero =>
    intro index cw c hc
    simp [iterate_matches_aux] at hc
  | succ f ih =>
    intro index cw c hc
    simp only [iterate_matches_aux, List.mem_flatMap, List.mem_append, List.mem_ite_nil_right,
      List.mem_singleton] at hc
    rcases hc with ⟨word, _, hc1 | hc2⟩
    · rcases hc1 with ⟨_, rfl⟩
      simp
    · rcases hc2 with ⟨_, j, _, hmem⟩
      have := ih j (cw ++ [word]) c hmem
      simp at this
      omega

theorem mem_iterate_aux_emit (words : List (Option (List (List Nat)))) (cnt : Int)
    (al : Bool) : ∀ fuel index cw c, c ∈ iterate_matches_aux words cnt al fuel index cw →
    shouldEmit cnt al c.length = true := by
  intro fuel
  induction fuel with
  | zero =>
    intro index cw c hc
    simp [iterate_matches_aux] at hc
  | succ f ih =>
    intro index cw c hc
    simp only [iterate_matches_aux, List.mem_flatMap, List.mem_append, List.mem_ite_nil_right,
      List.mem_singleton] at hc
    rcases hc with ⟨word, _, hc1 | hc2⟩
    · rcases hc1 with ⟨hse, rfl⟩
      exact hse
    · rcases hc2 with ⟨_, j, _, hmem⟩
      exact ih j (cw ++ [word]) c hmem

theorem iterate_aux_shift (words : List (Option (List (List Nat)))) (cnt : Int)
    (al : Bool) (hc : cnt < 1) : ∀ fuel index cw,
    iterate_matches_aux words cnt al fuel index cw =
      (iterate_matches_aux words cnt al fuel index []).map (fun d => cw ++ d) := by
  intro fuel
  induction fuel with
  | zero => intro index cw; simp [iterate_matches_aux]
  | succ f ih =>
    intro index cw
    simp only [iterate_matches_aux]
    rw [List.map_flatMap]
    apply flatMap_congr
    intro word _
    simp only [shouldEmit_of_lt_one hc, shouldContinue_of_lt_one hc, if_pos, List.map_append,
      List.map_cons, List.map_nil, List.nil_append]
    congr 1
    rw [List.map_flatMap]
    apply flatMap_congr
    intro j _
    rw [ih j (cw ++ [word]), ih j [word], List.map_map]
    apply List.map_congr_left
    intro d _
    simp

theorem iterate_aux_out_of_range (words : List (Option (List (List Nat)))) (cnt : Int)
    (al : Bool) (fuel index : Nat) (cw : List (List Nat)) (h : words.length ≤ index) :
    iterate_matches_aux words cnt al fuel index cw = [] := by
  cases fuel with
  | zero => rfl
  | succ f => simp [iterate_matches_aux, storedAt_eq_nil words index h]

theorem shouldEmit_eq_false {cnt : Int} (al : Bool) (n : Nat) (h1 : 1 ≤ cnt)
    (h2 : cnt ≤ (n : Int)) : shouldEmit cnt al (n + 1) = false := by
  cases al <;> simp [shouldEmit] <;> omega

theorem shouldContinue_eq_false {cnt : Int} (n : Nat) (h1 : 1 ≤ cnt)
    (h2 : cnt ≤ (n : Int)) : shouldContinue cnt (n + 1) = false := by
  simp [shouldContinue]
  omega

theorem iterate_aux_exhausted (words : List (Option (List (List Nat)))) (cnt : Int)
    (al : Bool) (fuel index : Nat) (cw : List (List Nat)) (h1 : 1 ≤ cnt)
    (h2 : cnt ≤ (cw.length : Int)) :
    iterate_matches_aux words cnt al fuel index cw = [] := by
  cases fuel with
  | zero => rfl
  | succ f =>
    apply List.eq_nil_iff_forall_not_mem.mpr
    intro c hc
    simp only [iterate_matches_aux, List.mem_flatMap, List.mem_append, List.mem_ite_nil_right,
      List.mem_singleton] at hc
    rcases hc with ⟨word, _, hc1 | hc2⟩
    · rcases hc1 with ⟨hse, _⟩
      rw [List.length_append, List.length_singleton, shouldEmit_eq_false al cw.length h1 h2] at hse
      exact Bool.false_ne_true hse
    · rcases hc2 with ⟨hsc, _⟩
      rw [List.length_append, List.length_singleton, shouldContinue_eq_false cw.length h1 h2] at hsc
      exact Bool.false_ne_true hsc

theorem iterate_aux_fuel (words : List (Option (List (List Nat)))) (cnt : Int)
    (al : Bool) (hinv : WordsInv words) : ∀ k index fuel fuel2 cw,
    words.length ≤ index + k →
    (words.length ≤ index + fuel ∨ (1 ≤ cnt ∧ cnt ≤ (cw.length : Int) + fuel)) →
    (words.length ≤ index + fuel2 ∨ (1 ≤ cnt ∧ cnt ≤ (cw.length : Int) + fuel2)) →
    iterate_matches_aux words cnt al fuel index cw =
      iterate_matches_aux words cnt al fuel2 index cw := by
  intro k
  induction k with
  | zero =>
    intro index fuel fuel2 cw hk _ _
    rw [iterate_aux_out_of_range words cnt al fuel index cw (by omega),
      iterate_aux_out_of_range words cnt al fuel2 index cw (by omega)]
  | succ k2 ih =>
    intro index fuel fuel2 cw hk hs1 hs2
    cases fuel with
    | zero =>
      rcases hs1 with h | ⟨h1, h2⟩
      · rw [iterate_aux_out_of_range words cnt al 0 index cw (by omega),
          iterate_aux_out_of_range words cnt al fuel2 index cw (by omega)]
      · rw [iterate_aux_exhausted words cnt al 0 index cw h1 (by omega),
          iterate_aux_exhausted words cnt al fuel2 index cw h1 (by omega)]
    | succ f =>
      cases fuel2 with
      | zero =>
        rcases hs2 with h | ⟨h1, h2⟩
        · rw [iterate_aux_out_of_range words cnt al (f + 1) index cw (by omega),
            iterate_aux_out_of_range words cnt al 0 index cw (by omega)]
        · rw [iterate_aux_exhausted words cnt al (f + 1) index cw h1 (by omega),
            iterate_aux_exhausted words cnt al 0 index cw h1 (by omega)]
      | succ f2 =>
        simp only [iterate_matches_aux]
        apply flatMap_congr
        intro word hw
        congr 1
        by_cases hcont : shouldContinue cnt (cw ++ [word]).length = true
        · rw [if_pos hcont, if_pos hcont]
          apply flatMap_congr
          intro j hj
          rcases List.mem_range'_1.mp hj with ⟨hj1, hj2⟩
          have hnext : index < next_index word := stored_lt_next hinv hw
          apply ih j f f2 (cw ++ [word]) (by omega)
          · rcases hs1 with h | ⟨h1, h2⟩
            · left; omega
            · right
              refine ⟨h1, ?_⟩
              simp only [List.length_append, List.length_singleton]
              push_cast
              omega
          · rcases hs2 with h | ⟨h1, h2⟩
            · left; omega
            · right
              refine ⟨h1, ?_⟩
              simp only [List.length_append, List.length_singleton]
              push_cast
              omega
        · rw [if_neg hcont, if_neg hcont]

theorem iterate_aux_sound (words : List (Option (List (List Nat)))) (cnt : Int)
    (al : Bool) (hinv : WordsInv words) : ∀ fuel index cw c,
    c ∈ iterate_matches_aux words cnt al fuel index cw →
    ∃ d, c = cw ++ d ∧ chainFrom words index d = true := by
  intro fuel
  induction fuel with
  | zero =>
    intro index cw c hc
    simp [iterate_matches_aux] at hc
  | succ f ih =>
    intro index cw c hc
    simp only [iterate_matches_aux, List.mem_flatMap, List.mem_append, List.mem_ite_nil_right,
      List.mem_singleton] at hc
    rcases hc with ⟨word, hw, hc1 | hc2⟩
    · rcases hc1 with ⟨_, rfl⟩
      refine ⟨[word], rfl, ?_⟩
      simp [chainFrom, chainRest, hw]
    · rcases hc2 with ⟨_, j, hj, hmem⟩
      rcases List.mem_range'_1.mp hj with ⟨hj1, _⟩
      rcases ih j (cw ++ [word]) c hmem with ⟨d2, heq, hchain⟩
      refine ⟨word :: d2, by simp [heq], ?_⟩
      cases d2 with
      | nil => simp [chainFrom, chainRest] at hchain
      | cons q rest =>
        simp only [chainFrom, Bool.and_eq_true, decide_eq_true_eq] at hchain ⊢
        rcases hchain with ⟨hqj, hrest⟩
        have hhead : q.headD 0 = j := stored_head_eq hinv hqj
        refine ⟨hw, ?_⟩
        simp only [chainRest, Bool.and_eq_true, decide_eq_true_eq]
        rw [hhead]
        exact ⟨⟨hj1, hqj⟩, hrest⟩

theorem chainRest_iff (words : List (Option (List (List Nat)))) :
    ∀ (c : List (List Nat)) (lo : Nat), chainRest words lo c = true ↔
      ((∀ p ∈ c, p ∈ storedAt words (p.headD 0)) ∧
       List.Chain' (fun p q => p.getLastD 0 < q.headD 0) c ∧
       (∀ q ∈ c.head?, lo ≤ q.headD 0)) := by
  intro c
  induction c with
  | nil => intro lo; simp [chainRest]
  | cons q rest ih =>
    intro lo
    simp only [chainRest, Bool.and_eq_true, decide_eq_true_eq, ih (next_index q),
      List.mem_cons, List.chain'_cons', List.head?_cons, Option.mem_some_iff]
    constructor
    · rintro ⟨⟨hlo, hq⟩, hall, hch, hhead⟩
      refine ⟨?_, ⟨?_, hch⟩, ?_⟩
      · rintro p (rfl | hp)
        · exact hq
        · exact hall p hp
      · intro y hy
        have := hhead y hy
        unfold next_index at this
        omega
      · rintro x rfl
        exact hlo
    · rintro ⟨hall, ⟨hR, hch⟩, hhead⟩
      refine ⟨⟨hhead q rfl, hall q (Or.inl rfl)⟩, fun p hp => hall p (Or.inr hp), hch, ?_⟩
      intro y hy
      have := hR y hy
      unfold next_index
      omega

theorem chainFrom_to_chainRest {words : List (Option (List (List Nat)))}
    (hinv : WordsInv words) {i : Nat} {c : List (List Nat)}
    (h : chainFrom words i c = true) : chainRest words 0 c = true := by
  cases c with
  | nil => simp [chainFrom] at h
  | cons p rest =>
    simp only [chainFrom, Bool.and_eq_true, decide_eq_true_eq] at h
    rcases h with ⟨hp, hrest⟩
    simp only [chainRest, Bool.and_eq_true, decide_eq_true_eq]
    exact ⟨⟨Nat.zero_le _, (stored_head_eq hinv hp) ▸ hp⟩, hrest⟩

theorem chainRest_heads {words : List (Option (List (List Nat)))} (hinv : WordsInv words) :
    ∀ (c : List (List Nat)) (lo : Nat), chainRest words lo c = true →
      List.Chain' (fun p q => p.headD 0 < q.headD 0) c := by
  intro c
  induction c with
  | nil => intro lo _; simp
  | cons q rest ih =>
    intro lo hc
    simp only [chainRest, Bool.and_eq_true, decide_eq_true_eq] at hc
    rcases hc with ⟨⟨_, hq⟩, hrest⟩
    have hrest_chain := ih (next_index q) hrest
    cases rest with
    | nil => simp
    | cons r rest2 =>
      refine List.chain'_cons.mpr ⟨?_, hrest_chain⟩
      simp only [chainRest, Bool.and_eq_true, decide_eq_true_eq] at hrest
      rcases hrest with ⟨⟨hnr, _⟩, _⟩
      rcases wordsInv_spec hinv _ q hq with ⟨hhead, hchain⟩
      cases q with
      | nil => simp at hhead
      | cons a t =>
        have hle := chain_head_le_getLastD t a hchain
        unfold next_index at hnr
        simp only [List.headD_cons]
        omega

/-! ### C4: ordering and non-overlap of every emitted combination -/

/-- C4: every combination produced by the enumerator over a well-formed table
has its placements ordered by strictly increasing start (first) index, and
each consecutive pair satisfies `next.first_index > previous.last_index`. -/
theorem C4_no_overlap (words : List (Option (List (List Nat)))) (cnt : Int) (al : Bool)
    (hinv : WordsInv words) :
    ∀ c ∈ iterate_all_matches words cnt al,
      List.Chain' (fun p q => p.headD 0 < q.headD 0) c ∧
      List.Chain' (fun p q => p.getLastD 0 < q.headD 0) c := by
  intro c hc
  simp only [iterate_all_matches, iterate_matches, List.mem_flatMap] at hc
  rcases hc with ⟨i, _, hc⟩
  rcases iterate_aux_sound words cnt al hinv _ i [] c hc with ⟨d, heq, hchain⟩
  simp only [List.nil_append] at heq
  subst heq
  have hcr := chainFrom_to_chainRest hinv hchain
  exact ⟨chainRest_heads hinv c 0 hcr, ((chainRest_iff words c 0).mp hcr).2.1⟩

/-- Witness for C4 on the populated table of the `"a a"` example. -/
theorem C4_no_overlap_witness :
    List.Chain' (fun p q => p.headD 0 < q.headD 0) ([[0], [2]] : List (List Nat)) ∧
    List.Chain' (fun p q => p.getLastD 0 < q.headD 0) ([[0], [2]] : List (List Nat)) :=
  C4_no_overlap aaResults.words 2 false (by decide) [[0], [2]] (by decide)

/-! ### C6: exact mode emits only combinations of exactly `count` words -/

/-- C6: with `count = K ≥ 1` and `allow_less = False` every emitted
combination has exactly `K` placements; and on the example phrase `"a a"`
with dictionary `{"a"}`, `count = 2`, `allow_less = False` the search stores
the placements `[0]` and `[2]` and emits exactly one combination,
`[[0], [2]]`. -/
theorem C6_exact_mode (words : List (Option (List (List Nat)))) (K : Int) (hK : 1 ≤ K) :
    (∀ c ∈ iterate_all_matches words K false, (c.length : Int) = K) ∧
    (print_matches_results [['a']] ['a', ' ', 'a'] 2 false = Except.ok aaResults ∧
     iterate_all_matches aaResults.words 2 false = [[[0], [2]]]) := by
  refine ⟨?_, by rfl, by decide⟩
  intro c hc
  simp only [iterate_all_matches, iterate_matches, List.mem_flatMap] at hc
  rcases hc with ⟨i, _, hc⟩
  have hemit := mem_iterate_aux_emit words K false _ i [] c hc
  simp only [shouldEmit, Bool.false_and, Bool.false_or, Bool.or_eq_true,
    decide_eq_true_eq] at hemit
  omega

/-- Witness for C6: the emitted combination of the example has length 2. -/
theorem C6_exact_mode_witness : ((([[0], [2]] : List (List Nat)).length : Int) = 2) :=
  (C6_exact_mode aaResults.words 2 (by decide)).1 [[0], [2]] (by decide)

/-! ### C2: the per-push emission policy -/

theorem events_flag (words : List (Option (List (List Nat)))) (cnt : Int) (al : Bool) :
    ∀ fuel index cw ev, ev ∈ iterate_events_aux words cnt al fuel index cw →
      ev.2 = shouldEmit cnt al ev.1.length := by
  intro fuel
  induction fuel with
  | zero => intro index cw ev hev; simp [iterate_events_aux] at hev
  | succ f ih =>
    intro index cw ev hev
    simp only [iterate_events_aux, List.mem_flatMap, List.mem_cons,
      List.mem_ite_nil_right] at hev
    rcases hev with ⟨word, _, hev | hev⟩
    · subst hev; rfl
    · rcases hev with ⟨_, j, _, hev⟩
      exact ih j (cw ++ [word]) ev hev

theorem filterMap_emit_cons (b : Bool) (x : List (List Nat))
    (rest : List (List (List Nat) × Bool)) :
    ((x, b) :: rest).filterMap (fun e => if e.2 then some e.1 else none) =
      (if b then [x] else []) ++
        rest.filterMap (fun e => if e.2 then some e.1 else none) := by
  cases b <;> simp [List.filterMap_cons]

theorem events_filterMap (words : List (Option (List (List Nat)))) (cnt : Int) (al : Bool) :
    ∀ fuel index cw,
    (iterate_events_aux words cnt al fuel index cw).filterMap
      (fun e => if e.2 then some e.1 else none) =
    iterate_matches_aux words cnt al fuel index cw := by
  intro fuel
  induction fuel with
  | zero => intro index cw; rfl
  | succ f ih =>
    intro index cw
    simp only [iterate_events_aux, iterate_matches_aux]
    rw [filterMap_flatMap]
    apply flatMap_congr
    intro word _
    rw [filterMap_emit_cons]
    congr 1
    by_cases hsc : shouldContinue cnt (cw ++ [word]).length = true
    · rw [if_pos hsc, if_pos hsc, filterMap_flatMap]
      apply flatMap_congr
      intro j _
      exact ih j (cw ++ [word])
    · rw [if_neg hsc, if_neg hsc]
      rfl

/-- C2: every time a placement is pushed during the enumeration, one event is
recorded, and the current stack is emitted at that moment if and only if
`count < 1`, or the stack length equals `count`, or `allow_less` holds and
the stack length is below `count`; filtering the push events by their
emission flag yields exactly the emitted combinations. -/
theorem C2_emission_policy (words : List (Option (List (List Nat)))) (cnt : Int) (al : Bool) :
    (∀ ev ∈ iterate_all_events words cnt al,
      (ev.2 = true ↔
        (cnt < 1 ∨ (ev.1.length : Int) = cnt ∨ (al = true ∧ (ev.1.length : Int) < cnt)))) ∧
    (iterate_all_events words cnt al).filterMap (fun e => if e.2 then some e.1 else none) =
      iterate_all_matches words cnt al := by
  constructor
  · intro ev hev
    simp only [iterate_all_events, List.mem_flatMap] at hev
    rcases hev with ⟨i, _, hev⟩
    rw [events_flag words cnt al _ i [] ev hev]
    cases al <;> simp [shouldEmit] <;> omega
  · simp only [iterate_all_events, iterate_all_matches, iterate_matches]
    rw [filterMap_flatMap]
    apply flatMap_congr
    intro i _
    exact events_filterMap words cnt al _ i []

/-- Witness for C2 at the push of `[2]` onto `[[0]]` in the `"a a"` example. -/
theorem C2_emission_policy_witness :
    ((([[0], [2]] : List (List Nat)), true).2 = true ↔
      ((2 : Int) < 1 ∨ ((([[0], [2]] : List (List Nat)).length : Int) = (2 : Int) ∨
        (false = true ∧ (([[0], [2]] : List (List Nat)).length : Int) < (2 : Int))))) ∧
    (iterate_all_events aaResults.words 2 false).filterMap
      (fun e => if e.2 then some e.1 else none) =
      iterate_all_matches aaResults.words 2 false :=
  ⟨(C2_emission_policy aaResults.words 2 false).1 ([[0], [2]], true) (by decide),
   (C2_emission_policy aaResults.words 2 false).2⟩

/-! ### C8: fuel irrelevance, i.e. the bounded recursion depth -/

/-- C8: the enumeration terminates with recursion depth bounded by the phrase
length (each level moves the start position strictly forward), and when
`count ≥ 1` also by `count`: running the search with any fuel at least one of
those bounds yields the same finite list of combinations. -/
theorem C8_termination (words : List (Option (List (List Nat)))) (cnt : Int) (al : Bool)
    (hinv : WordsInv words) :
    ∀ fuel, (words.length ≤ fuel ∨ (1 ≤ cnt ∧ cnt ≤ (fuel : Int))) →
    iterate_all_matches_fuel words cnt al fuel = iterate_all_matches words cnt al := by
  intro fuel hfuel
  simp only [iterate_all_matches_fuel, iterate_all_matches, iterate_matches]
  apply flatMap_congr
  intro i _
  apply iterate_aux_fuel words cnt al hinv words.length i fuel (words.length + 1) [] (by omega)
  · rcases hfuel with h | ⟨h1, h2⟩
    · left; omega
    · right
      exact ⟨h1, by simpa using h2⟩
  · left; omega

/-- Witness for C8 on the `"a a"` table: fuel 3 (the phrase length) already
gives the stabilized enumeration. -/
theorem C8_termination_witness :
    iterate_all_matches_fuel aaResults.words 0 true 3 =
      iterate_all_matches aaResults.words 0 true :=
  C8_termination aaResults.words 0 true (by decide) 3 (Or.inl (by decide))

/-! ### C1: the unbounded enumeration is complete and duplicate-free -/

theorem storedAt_nodup {words : List (Option (List (List Nat)))} (hnd : WordsNodup words) :
    ∀ i, (storedAt words i).Nodup := by
  intro i
  by_cases hi : i < words.length
  · exact hnd i (List.mem_range.mpr hi)
  · rw [storedAt_eq_nil words i (by omega)]
    exact List.nodup_nil

theorem nil_not_mem_iterate_aux (words : List (Option (List (List Nat)))) (cnt : Int)
    (al : Bool) (fuel index : Nat) (cw : List (List Nat)) :
    [] ∉ iterate_matches_aux words cnt al fuel index cw := by
  intro h
  have := mem_iterate_aux_length words cnt al fuel index cw [] h
  simp at this

theorem iterate_aux_count (words : List (Option (List (List Nat)))) (cnt : Int) (al : Bool)
    (hcnt : cnt < 1) (hinv : WordsInv words) (hnd : WordsNodup words) :
    ∀ fuel index c, words.length ≤ index + fuel →
    (iterate_matches_aux words cnt al fuel index []).count c =
      if chainFrom words index c = true then 1 else 0 := by
  intro fuel
  induction fuel with
  | zero =>
    intro index c hk
    rw [iterate_aux_out_of_range words cnt al 0 index [] (by omega), List.count_nil]
    cases c with
    | nil => simp [chainFrom]
    | cons p rest =>
      rw [if_neg]
      simp [chainFrom, storedAt_eq_nil words index (by omega : words.length ≤ index)]
  | succ f ih =>
    intro index c hk
    simp only [iterate_matches_aux, shouldEmit_of_lt_one hcnt,
      shouldContinue_of_lt_one hcnt, eq_self_iff_true, if_true, List.nil_append]
    rw [count_flatMap]
    cases c with
    | nil =>
      rw [List.sum_eq_zero, if_neg (by simp [chainFrom])]
      intro x hx
      rcases List.mem_map.mp hx with ⟨word, _, hw2⟩
      rw [← hw2, List.count_append]
      have h1 : List.count ([] : List (List Nat)) [[word]] = 0 :=
        List.count_eq_zero_of_not_mem (by simp)
      have h2 : List.count ([] : List (List Nat))
          ((List.range' (next_index word) (words.length - next_index word)).flatMap
            (fun j => iterate_matches_aux words cnt al f j [word])) = 0 := by
        apply List.count_eq_zero_of_not_mem
        intro hmem
        rcases List.mem_flatMap.mp hmem with ⟨j, _, hj2⟩
        exact nil_not_mem_iterate_aux words cnt al f j [word] hj2
      rw [h1, h2]
      rfl
    | cons p crest =>
      rw [sum_map_single _ _ p]
      · by_cases hp : p ∈ storedAt words index
        · rw [count_nodup _ _ (storedAt_nodup hnd index), if_pos hp, one_mul,
            List.count_append]
          have hs : index < next_index p := stored_lt_next hinv hp
          have hrec : (((List.range' (next_index p)
                (words.length - next_index p)).flatMap
                (fun j => iterate_matches_aux words cnt al f j [p])).count (p :: crest)) =
              ((List.range' (next_index p) (words.length - next_index p)).map
                (fun j => if chainFrom words j crest = true then 1 else 0)).sum := by
            rw [count_flatMap]
            congr 1
            apply List.map_congr_left
            intro j hj
            rcases List.mem_range'_1.mp hj with ⟨hj1, _⟩
            rw [iterate_aux_shift words cnt al hcnt f j [p]]
            simp only [List.singleton_append]
            rw [count_map_cons, if_pos rfl, ih j crest (by omega)]
          rw [hrec]
          cases crest with
          | nil =>
            have hz0 : ((List.range' (next_index p) (words.length - next_index p)).map
                (fun j => if chainFrom words j ([] : List (List Nat)) = true
                  then 1 else 0)).sum = 0 := by
              apply List.sum_eq_zero
              intro x hx
              rcases List.mem_map.mp hx with ⟨j, _, hj2⟩
              rw [← hj2]
              simp [chainFrom]
            rw [hz0, count_singleton_list, if_pos rfl,
              if_pos (show chainFrom words index [p] = true by
                simp [chainFrom, chainRest, hp])]
          | cons q crest2 =>
            have hsingle : ∀ j, j ≠ q.headD 0 →
                (if chainFrom words j (q :: crest2) = true then 1 else 0) = 0 := by
              intro j hjne
              apply if_neg
              intro hcf
              simp only [chainFrom, Bool.and_eq_true, decide_eq_true_eq] at hcf
              exact hjne (stored_head_eq hinv hcf.1).symm
            rw [count_singleton_list, if_neg (by simp), Nat.zero_add,
              sum_map_range'_single _ _ _ (q.headD 0) hsingle]
            by_cases h2 : q ∈ storedAt words (q.headD 0)
            · have hqlen : q.headD 0 < words.length := lt_length_of_mem_storedAt h2
              by_cases h1 : next_index p ≤ q.headD 0
              · rw [if_pos ⟨h1, by omega⟩]
                have hcond : chainFrom words (q.headD 0) (q :: crest2) =
                    chainFrom words index (p :: q :: crest2) := by
                  simp only [chainFrom, chainRest]
                  rw [decide_eq_true h2, decide_eq_true h1, decide_eq_true hp]
                  simp
                rw [hcond]
              · have hneg : ¬(chainFrom words index (p :: q :: crest2) = true) := by
                  intro hcf
                  simp only [chainFrom, chainRest, Bool.and_eq_true,
                    decide_eq_true_eq] at hcf
                  exact h1 hcf.2.1.1
                rw [if_neg (fun hcon => h1 hcon.1), if_neg hneg]
            · have hz : (if chainFrom words (q.headD 0) (q :: crest2) = true
                  then 1 else 0) = 0 := by
                apply if_neg
                intro hcf
                simp only [chainFrom, Bool.and_eq_true, decide_eq_true_eq] at hcf
                exact h2 hcf.1
              have hneg : ¬(chainFrom words index (p :: q :: crest2) = true) := by
                intro hcf
                simp only [chainFrom, chainRest, Bool.and_eq_true,
                  decide_eq_true_eq] at hcf
                exact h2 hcf.2.1.2
              rw [if_neg hneg]
              by_cases hg : next_index p ≤ q.headD 0 ∧
                  q.headD 0 < next_index p + (words.length - next_index p)
              · rw [if_pos hg, hz]
              · rw [if_neg hg]
        · have hneg : ¬(chainFrom words index (p :: crest) = true) := by
            intro hcf
            simp only [chainFrom, Bool.and_eq_true, decide_eq_true_eq] at hcf
            exact hp hcf.1
          rw [count_nodup _ _ (storedAt_nodup hnd index), if_neg hp, Nat.zero_mul,
            if_neg hneg]
      · intro word hwne
        rw [List.count_append, count_singleton_list,
          if_neg (fun hcon => hwne (List.cons_eq_cons.mp hcon).1), Nat.zero_add,
          count_flatMap, List.sum_eq_zero]
        intro x hx
        rcases List.mem_map.mp hx with ⟨j, _, hj2⟩
        rw [← hj2, iterate_aux_shift words cnt al hcnt f j [word]]
        simp only [List.singleton_append]
        rw [count_map_cons, if_neg hwne]

theorem validCombo_eq_chainFrom (words : List (Option (List (List Nat))))
    (p : List Nat) (crest : List (List Nat)) :
    validCombo words (p :: crest) = chainFrom words (p.headD 0) (p :: crest) := by
  rw [Bool.eq_iff_iff]
  constructor
  · intro hv
    simp only [validCombo, List.isEmpty_cons, Bool.not_false, Bool.true_and,
      Bool.and_eq_true, List.all_eq_true, decide_eq_true_eq] at hv
    rcases hv with ⟨hall, hchain⟩
    rw [comboChain_iff] at hchain
    simp only [chainFrom, Bool.and_eq_true, decide_eq_true_eq]
    refine ⟨hall p (by simp), ?_⟩
    rw [chainRest_iff]
    rcases List.chain'_cons'.mp hchain with ⟨hhead, htail⟩
    refine ⟨fun q hq => hall q (by simp [hq]), htail, ?_⟩
    intro y hy
    have := hhead y hy
    unfold next_index
    omega
  · intro hcf
    simp only [chainFrom, Bool.and_eq_true, decide_eq_true_eq] at hcf
    rcases hcf with ⟨hpmem, hrest⟩
    rw [chainRest_iff] at hrest
    rcases hrest with ⟨hall, hch, hhead⟩
    simp only [validCombo, List.isEmpty_cons, Bool.not_false, Bool.true_and,
      Bool.and_eq_true, List.all_eq_true, decide_eq_true_eq]
    constructor
    · intro x hx
      rcases List.mem_cons.mp hx with rfl | hx2
      · exact hpmem
      · exact hall x hx2
    · rw [comboChain_iff]
      apply List.chain'_cons'.mpr
      refine ⟨?_, hch⟩
      intro y hy
      have := hhead y hy
      unfold next_index at this
      omega

/-- C1: in unbounded mode (`count < 1`), over a well-formed table with
duplicate-free per-position placement lists, the enumeration seeded at all
start positions emits each non-empty non-overlapping combination of stored
placements exactly once and emits nothing else; moreover every non-empty
prefix of a valid combination is itself a valid combination (and hence is
also emitted exactly once). -/
theorem C1_unbounded_complete_once (words : List (Option (List (List Nat)))) (cnt : Int)
    (al : Bool) (hcnt : cnt < 1) (hinv : WordsInv words) (hnd : WordsNodup words) :
    (∀ c, (iterate_all_matches words cnt al).count c =
      if validCombo words c = true then 1 else 0) ∧
    (∀ (c : List (List Nat)) (k : Nat), validCombo words c = true → 1 ≤ k →
      validCombo words (c.take k) = true) := by
  constructor
  · intro c
    have hcnt_eq : (iterate_all_matches words cnt al).count c =
        ((List.range words.length).map
          (fun i => if chainFrom words i c = true then 1 else 0)).sum := by
      simp only [iterate_all_matches, iterate_matches]
      rw [count_flatMap]
      congr 1
      apply List.map_congr_left
      intro i _
      exact iterate_aux_count words cnt al hcnt hinv hnd (words.length + 1) i c (by omega)
    rw [hcnt_eq]
    cases c with
    | nil =>
      have hz : ((List.range words.length).map
          (fun i => if chainFrom words i ([] : List (List Nat)) = true
            then 1 else 0)).sum = 0 := by
        apply List.sum_eq_zero
        intro x hx
        rcases List.mem_map.mp hx with ⟨i, _, h2⟩
        rw [← h2]
        simp [chainFrom]
      rw [hz, if_neg (by simp [validCombo])]
    | cons p crest =>
      have hsingle : ∀ i, i ≠ p.headD 0 →
          (if chainFrom words i (p :: crest) = true then 1 else 0) = 0 := by
        intro i hine
        apply if_neg
        intro hcf
        simp only [chainFrom, Bool.and_eq_true, decide_eq_true_eq] at hcf
        exact hine (stored_head_eq hinv hcf.1).symm
      rw [List.range_eq_range', sum_map_range'_single _ _ _ (p.headD 0) hsingle,
        validCombo_eq_chainFrom]
      by_cases hv : chainFrom words (p.headD 0) (p :: crest) = true
      · have hpmem : p ∈ storedAt words (p.headD 0) := by
          simp only [chainFrom, Bool.and_eq_true, decide_eq_true_eq] at hv
          exact hv.1
        have hlen := lt_length_of_mem_storedAt hpmem
        rw [if_pos ⟨Nat.zero_le _, by omega⟩]
      · rw [if_neg hv]
        by_cases hg : 0 ≤ p.headD 0 ∧ p.headD 0 < 0 + words.length
        · rw [if_pos hg]
        · rw [if_neg hg]
  · intro c k hv hk
    cases c with
    | nil => simp [validCombo] at hv
    | cons p crest =>
      cases k with
      | zero => omega
      | succ k2 =>
        rw [List.take_succ_cons]
        simp only [validCombo, List.isEmpty_cons, Bool.not_false, Bool.true_and,
          Bool.and_eq_true, List.all_eq_true, decide_eq_true_eq] at hv ⊢
        rcases hv with ⟨hall, hchain⟩
        rw [comboChain_iff] at hchain
        constructor
        · intro x hx
          rcases List.mem_cons.mp hx with rfl | hx2
          · exact hall x (by simp)
          · exact hall x (List.mem_cons_of_mem p (List.mem_of_mem_take hx2))
        · rw [comboChain_iff]
          exact List.Chain'.prefix hchain
            (List.cons_prefix_cons.mpr ⟨rfl, List.take_prefix k2 crest⟩)

/-- Witness for C1 on the `"a a"` table in unbounded mode. -/
theorem C1_unbounded_complete_once_witness :
    (iterate_all_matches aaResults.words 0 true).count [[0], [2]] =
      (if validCombo aaResults.words [[0], [2]] = true then 1 else 0) :=
  (C1_unbounded_complete_once aaResults.words 0 true (by decide) (by decide)
    (by decide)).1 [[0], [2]]

/-! ### Correctness of the letter maps -/

theorem lookup_map_update (c0 : Char) (j : Nat) : ∀ (m : LMap) (c : Char),
    lmapLookup (m.map (fun e => if e.1 == c0 then (e.1, e.2 ++ [j]) else e)) c =
      if c = c0 then (lmapLookup m c0).map (fun l => l ++ [j]) else lmapLookup m c := by
  intro m
  induction m with
  | nil =>
    intro c
    by_cases hc : c = c0 <;> simp [lmapLookup, hc]
  | cons e t ih =>
    intro c
    rcases e with ⟨k, v⟩
    simp only [List.map_cons]
    by_cases hk0 : k = c0
    · have hb : (k == c0) = true := beq_iff_eq.mpr hk0
      rw [hb, if_pos rfl]
      by_cases hck : c = k
      · subst hck
        subst hk0
        simp [lmapLookup, List.lookup]
      · have hcc0 : ¬c = c0 := by
          intro h
          exact hck (h.trans hk0.symm)
        have hkc : (c == k) = false := beq_eq_false_iff_ne.mpr hck
        rw [if_neg hcc0]
        simp only [lmapLookup, List.lookup, hkc]
        have hrec := ih c
        simp only [lmapLookup] at hrec
        rw [hrec, if_neg hcc0]
    · have hb : (k == c0) = false := beq_eq_false_iff_ne.mpr hk0
      rw [hb, if_neg Bool.false_ne_true]
      by_cases hck : c = k
      · subst hck
        rw [if_neg hk0]
        simp [lmapLookup, List.lookup]
      · have hkc : (c == k) = false := beq_eq_false_iff_ne.mpr hck
        have hb2 : (c0 == k) = false := beq_eq_false_iff_ne.mpr (fun h => hk0 h.symm)
        simp only [lmapLookup, List.lookup, hkc, hb2]
        have hrec := ih c
        simp only [lmapLookup] at hrec
        exact hrec

theorem lookup_append_cases (c : Char) : ∀ (m l2 : LMap),
    lmapLookup (m ++ l2) c =
      match lmapLookup m c with
      | some v => some v
      | none => lmapLookup l2 c := by
  intro m l2
  induction m with
  | nil => simp [lmapLookup]
  | cons e t ih =>
    rcases e with ⟨k, v⟩
    by_cases hck : c = k
    · subst hck
      simp [lmapLookup, List.lookup]
    · have hkc : (c == k) = false := beq_eq_false_iff_ne.mpr hck
      simp only [List.cons_append, lmapLookup, List.lookup, hkc]
      exact ih

theorem lookup_lmapAppend (m : LMap) (c0 : Char) (j : Nat) (c : Char) :
    lmapLookup (lmapAppend m c0 j) c =
      if c = c0 then some (((lmapLookup m c0).getD []) ++ [j]) else lmapLookup m c := by
  unfold lmapAppend
  by_cases hsome : (lmapLookup m c0).isSome = true
  · rw [if_pos hsome, lookup_map_update]
    rcases Option.isSome_iff_exists.mp hsome with ⟨l, hl⟩
    by_cases hc : c = c0
    · rw [if_pos hc, if_pos hc, hl]
      simp
    · rw [if_neg hc, if_neg hc]
  · rw [if_neg hsome, lookup_append_cases]
    have hnone : lmapLookup m c0 = none := by
      rcases h : lmapLookup m c0 with _ | v
      · rfl
      · rw [h] at hsome
        simp at hsome
    by_cases hc : c = c0
    · subst hc
      rw [hnone]
      simp [lmapLookup, List.lookup]
    · have hcc : (c == c0) = false := beq_eq_false_iff_ne.mpr hc
      rw [if_neg hc]
      rcases h : lmapLookup m c with _ | v
      · simp [lmapLookup, List.lookup, hcc]
      · rfl

theorem laterOccs_nil (ph : List Char) (i : Nat) (c : Char) (hc : is_letter c = true)
    (hnolet : ∀ p, i < p → p < ph.length → is_letter (ph.getD p ' ') = false) :
    laterOccs ph i c = [] := by
  unfold laterOccs
  rw [List.reverse_eq_nil_iff, List.filter_eq_nil_iff]
  intro p hp
  rcases List.mem_range.mp hp with hplen
  by_cases h1 : i < p
  · have hnl := hnolet p h1 hplen
    have hne : ph.getD p ' ' ≠ c := by
      intro hEq
      rw [hEq, hc] at hnl
      exact Bool.noConfusion hnl
    simp only [Bool.and_eq_true, decide_eq_true_eq, beq_iff_eq, not_and]
    exact fun _ => hne
  · simp [h1]

theorem laterOccs_congr (ph : List Char) (i j : Nat) (c : Char) (hij : i < j)
    (hgap : ∀ p, i < p → p < j → is_letter (ph.getD p ' ') = false)
    (hjc : ph.getD j ' ' ≠ c) (hcl : is_letter c = true) :
    laterOccs ph i c = laterOccs ph j c := by
  unfold laterOccs
  congr 1
  apply List.filter_congr
  intro p hp
  rcases List.mem_range.mp hp with hplen
  by_cases h1 : j < p
  · have h2 : i < p := by omega
    simp [h1, h2]
  · by_cases h2 : i < p
    · have hne : ph.getD p ' ' ≠ c := by
        by_cases h3 : p = j
        · subst h3
          exact hjc
        · have hnl := hgap p h2 (by omega)
          intro hEq
          rw [hEq, hcl] at hnl
          exact Bool.noConfusion hnl
      have hbeq : (ph.getD p ' ' == c) = false := beq_eq_false_iff_ne.mpr hne
      simp only [hbeq, Bool.and_false]
    · simp [h1, h2]

theorem laterOccs_split (ph : List Char) (i j : Nat) (c0 : Char) (hij : i < j)
    (hjN : j < ph.length) (hc0 : ph.getD j ' ' = c0) (hl0 : is_letter c0 = true)
    (hgap : ∀ p, i < p → p < j → is_letter (ph.getD p ' ') = false) :
    laterOccs ph i c0 = laterOccs ph j c0 ++ [j] := by
  unfold laterOccs
  have hN : (ph.length - (j + 1)) + (j + 1) = ph.length := by omega
  have hsplit : List.range ph.length =
      List.range' 0 (j + 1) ++ List.range' (j + 1) (ph.length - (j + 1)) := by
    rw [List.range_eq_range', ← hN, ← List.range'_append 0 (j + 1) (ph.length - (j + 1)) 1]
    simp
  have hsplit2 : List.range' 0 (j + 1) = List.range' 0 j ++ [j] := by
    have h1 : List.range' 0 j ++ List.range' j 1 = List.range' 0 (1 + j) := by
      have := List.range'_append 0 j 1 1
      simpa using this
    rw [show j + 1 = 1 + j by omega, ← h1, List.range'_one]
  have hleft_i : (List.range' 0 (j + 1)).filter
      (fun p => decide (i < p) && (ph.getD p ' ' == c0)) = [j] := by
    rw [hsplit2, List.filter_append]
    have h1 : (List.range' 0 j).filter
        (fun p => decide (i < p) && (ph.getD p ' ' == c0)) = [] := by
      rw [List.filter_eq_nil_iff]
      intro p hp
      rcases List.mem_range'_1.mp hp with ⟨_, hpj⟩
      simp only [Nat.zero_add] at hpj
      by_cases h2 : i < p
      · have hnl := hgap p h2 hpj
        have hne : ph.getD p ' ' ≠ c0 := by
          intro hEq
          rw [hEq, hl0] at hnl
          exact Bool.noConfusion hnl
        simp only [Bool.and_eq_true, decide_eq_true_eq, beq_iff_eq, not_and]
        exact fun _ => hne
      · simp [h2]
    have h2 : List.filter (fun p => decide (i < p) && (ph.getD p ' ' == c0)) [j] = [j] := by
      have hb : (ph.getD j ' ' == c0) = true := beq_iff_eq.mpr hc0
      simp only [List.filter_cons, List.filter_nil, hb, decide_eq_true hij, Bool.and_self,
        eq_self_iff_true, if_true]
    rw [h1, h2, List.nil_append]
  have hleft_j : (List.range' 0 (j + 1)).filter
      (fun p => decide (j < p) && (ph.getD p ' ' == c0)) = [] := by
    rw [List.filter_eq_nil_iff]
    intro p hp
    rcases List.mem_range'_1.mp hp with ⟨_, hpj⟩
    simp only [Nat.zero_add] at hpj
    have : ¬j < p := by omega
    simp [this]
  have hright : (List.range' (j + 1) (ph.length - (j + 1))).filter
      (fun p => decide (i < p) && (ph.getD p ' ' == c0)) =
      (List.range' (j + 1) (ph.length - (j + 1))).filter
      (fun p => decide (j < p) && (ph.getD p ' ' == c0)) := by
    apply List.filter_congr
    intro p hp
    rcases List.mem_range'_1.mp hp with ⟨hp1, _⟩
    have h1 : i < p := by omega
    have h2 : j < p := by omega
    simp [h1, h2]
  rw [hsplit, List.filter_append, List.filter_append, hleft_i, hleft_j, hright,
    List.reverse_append, List.reverse_append]
  simp

theorem entry_step (ph : List Char) (i j : Nat) (c0 : Char) (last : LMap)
    (hec : entryCorrect ph j last) (hij : i < j) (hjN : j < ph.length)
    (hc0 : ph.getD j ' ' = c0) (hl0 : is_letter c0 = true)
    (hgap : ∀ p, i < p → p < j → is_letter (ph.getD p ' ') = false) :
    entryCorrect ph i (lmapAppend last c0 j) := by
  intro c
  rw [lookup_lmapAppend]
  have hsplit := laterOccs_split ph i j c0 hij hjN hc0 hl0 hgap
  by_cases hc : c = c0
  · subst hc
    rw [if_pos rfl, hec c]
    by_cases hx : laterOccs ph j c = []
    · rw [if_neg (fun hcon => hcon.2 hx)]
      rw [if_pos ⟨hl0, by rw [hsplit, hx]; simp⟩]
      rw [hsplit, hx]
      simp
    · rw [if_pos ⟨hl0, hx⟩]
      rw [if_pos ⟨hl0, by rw [hsplit]; simp⟩]
      rw [hsplit]
      simp
  · rw [if_neg hc, hec c]
    by_cases hletter : is_letter c = true
    · have hjc : ph.getD j ' ' ≠ c := by
        rw [hc0]
        exact fun h => hc h.symm
      rw [laterOccs_congr ph i j c hij hgap hjc hletter]
    · rw [if_neg (fun hcon => hletter hcon.1), if_neg (fun hcon => hletter hcon.1)]

theorem mlmGo_spec : ∀ (suffix : List Char) (i : Nat) (ph : List Char),
    ph.length = i + suffix.length →
    (∀ k, k < suffix.length → ph.getD (i + k) ' ' = suffix.getD k ' ') →
    (mlmGo suffix i).1.length = suffix.length ∧
    stCorrect ph i (mlmGo suffix i).2 ∧
    (∀ k, k < suffix.length →
      (is_letter (suffix.getD k ' ') = false → (mlmGo suffix i).1.getD k none = none) ∧
      (is_letter (suffix.getD k ' ') = true →
        ∃ m, (mlmGo suffix i).1.getD k none = some m ∧ entryCorrect ph (i + k) m)) := by
  intro suffix
  induction suffix with
  | nil =>
    intro i ph hlen _
    refine ⟨rfl, ?_, ?_⟩
    · simp only [mlmGo, stCorrect]
      intro p hp1 hp2
      simp at hlen
      omega
    · intro k hk
      exact absurd hk (by simp)
  | cons ch rest ih =>
    intro i ph hlen hagree
    have hchph : ph.getD i ' ' = ch := by
      have := hagree 0 (by simp)
      simpa using this
    have hlen2 : ph.length = (i + 1) + rest.length := by
      simp at hlen
      omega
    have hagree2 : ∀ k, k < rest.length → ph.getD ((i + 1) + k) ' ' = rest.getD k ' ' := by
      intro k hk
      have := hagree (k + 1) (by simp; omega)
      rw [show i + (k + 1) = (i + 1) + k by omega] at this
      simpa using this
    obtain ⟨ihlen, ihst, ihent⟩ := ih (i + 1) ph hlen2 hagree2
    have hgo1 : (mlmGo (ch :: rest) i).1 =
        (mlmEntry (mlmGo rest (i + 1)).2 i ch).1 :: (mlmGo rest (i + 1)).1 := rfl
    have hgo2 : (mlmGo (ch :: rest) i).2 = (mlmEntry (mlmGo rest (i + 1)).2 i ch).2 := rfl
    cases hch : is_letter ch with
    | false =>
      have hentry : mlmEntry (mlmGo rest (i + 1)).2 i ch =
          (none, (mlmGo rest (i + 1)).2) := by
        unfold mlmEntry
        rw [hch, if_neg Bool.false_ne_true]
      refine ⟨?_, ?_, ?_⟩
      · rw [hgo1, hentry]
        simp [ihlen]
      · rw [hgo2, hentry]
        rcases hst : (mlmGo rest (i + 1)).2 with _ | ⟨m, c0, j⟩
        · rw [hst] at ihst
          simp only [stCorrect] at ihst ⊢
          intro p hp1 hp2
          by_cases hpi : p = i
          · subst hpi
            rw [hchph]
            exact hch
          · exact ihst p (by omega) hp2
        · rw [hst] at ihst
          simp only [stCorrect] at ihst ⊢
          obtain ⟨h1, h2, h3, h4, h5, h6⟩ := ihst
          refine ⟨by omega, h2, h3, h4, ?_, h6⟩
          intro p hp1 hp2
          by_cases hpi : p = i
          · subst hpi
            rw [hchph]
            exact hch
          · exact h5 p (by omega) hp2
      · intro k hk
        cases k with
        | zero =>
          constructor
          · intro _
            rw [hgo1, hentry]
            rfl
          · intro habs
            rw [List.getD_cons_zero, hch] at habs
            exact Bool.noConfusion habs
        | succ k2 =>
          have hk2 : k2 < rest.length := by
            simp at hk
            omega
          have hrec := ihent k2 hk2
          constructor
          · intro hnl
            rw [hgo1]
            simp only [List.getD_cons_succ]
            exact hrec.1 (by simpa using hnl)
          · intro hl
            rw [hgo1]
            simp only [List.getD_cons_succ]
            rcases hrec.2 (by simpa using hl) with ⟨m, hm1, hm2⟩
            exact ⟨m, hm1, by rw [show i + (k2 + 1) = (i + 1) + k2 by omega]; exact hm2⟩
    | true =>
      rcases hst : (mlmGo rest (i + 1)).2 with _ | ⟨last, c0, j⟩
      · have hentry : mlmEntry (mlmGo rest (i + 1)).2 i ch = (some [], some ([], ch, i)) := by
          rw [hst]
          unfold mlmEntry
          rw [hch, if_pos rfl]
        rw [hst] at ihst
        simp only [stCorrect] at ihst
        have hec : entryCorrect ph i [] := by
          intro c
          by_cases hcl : is_letter c = true
          · rw [laterOccs_nil ph i c hcl (fun p hp1 hp2 => ihst p (by omega) hp2)]
            simp [lmapLookup]
          · simp only [lmapLookup, List.lookup]
            rw [if_neg (fun hcon => hcl hcon.1)]
        refine ⟨?_, ?_, ?_⟩
        · rw [hgo1, hentry]
          simp [ihlen]
        · rw [hgo2, hentry]
          simp only [stCorrect]
          refine ⟨le_refl i, by simp at hlen; omega, hchph, hch, ?_, hec⟩
          intro p hp1 hp2
          omega
        · intro k hk
          cases k with
          | zero =>
            constructor
            · intro habs
              rw [List.getD_cons_zero, hch] at habs
              exact Bool.noConfusion habs
            · intro _
              rw [hgo1, hentry]
              exact ⟨[], rfl, by rw [Nat.add_zero]; exact hec⟩
          | succ k2 =>
            have hk2 : k2 < rest.length := by
              simp at hk
              omega
            have hrec := ihent k2 hk2
            constructor
            · intro hnl
              rw [hgo1]
              simp only [List.getD_cons_succ]
              exact hrec.1 (by simpa using hnl)
            · intro hl
              rw [hgo1]
              simp only [List.getD_cons_succ]
              rcases hrec.2 (by simpa using hl) with ⟨m, hm1, hm2⟩
              exact ⟨m, hm1, by rw [show i + (k2 + 1) = (i + 1) + k2 by omega]; exact hm2⟩
      · have hentry : mlmEntry (mlmGo rest (i + 1)).2 i ch =
            (some (lmapAppend last c0 j), some (lmapAppend last c0 j, ch, i)) := by
          rw [hst]
          unfold mlmEntry
          rw [hch, if_pos rfl]
        rw [hst] at ihst
        simp only [stCorrect] at ihst
        obtain ⟨hj1, hj2, hj3, hj4, hj5, hj6⟩ := ihst
        have hstep : entryCorrect ph i (lmapAppend last c0 j) := by
          apply entry_step ph i j c0 last hj6 (by omega) hj2 hj3 hj4
          intro p hp1 hp2
          exact hj5 p (by omega) hp2
        refine ⟨?_, ?_, ?_⟩
        · rw [hgo1, hentry]
          simp [ihlen]
        · rw [hgo2, hentry]
          simp only [stCorrect]
          exact ⟨le_refl i, by omega, hchph, hch, by intro p hp1 hp2; omega, hstep⟩
        · intro k hk
          cases k with
          | zero =>
            constructor
            · intro habs
              rw [List.getD_cons_zero, hch] at habs
              exact Bool.noConfusion habs
            · intro _
              rw [hgo1, hentry]
              exact ⟨lmapAppend last c0 j, rfl, by rw [Nat.add_zero]; exact hstep⟩
          | succ k2 =>
            have hk2 : k2 < rest.length := by
              simp at hk
              omega
            have hrec := ihent k2 hk2
            constructor
            · intro hnl
              rw [hgo1]
              simp only [List.getD_cons_succ]
              exact hrec.1 (by simpa using hnl)
            · intro hl
              rw [hgo1]
              simp only [List.getD_cons_succ]
              rcases hrec.2 (by simpa using hl) with ⟨m, hm1, hm2⟩
              exact ⟨m, hm1, by rw [show i + (k2 + 1) = (i + 1) + k2 by omega]; exact hm2⟩

theorem make_letter_maps_spec (ph : List Char) :
    (make_letter_maps ph).length = ph.length ∧
    ∀ k, k < ph.length →
      (is_letter (ph.getD k ' ') = false → (make_letter_maps ph).getD k none = none) ∧
      (is_letter (ph.getD k ' ') = true →
        ∃ m, (make_letter_maps ph).getD k none = some m ∧ entryCorrect ph k m) := by
  obtain ⟨h1, _, h3⟩ := mlmGo_spec ph 0 ph (by simp) (by intro k hk; simp)
  refine ⟨h1, ?_⟩
  intro k hk
  have := h3 k hk
  simpa using this

/-- C5 (amended): `make_letter_maps` returns one entry per phrase position
(length N, no entry at position N); the entry at position `k` is `None`
exactly when position `k` is not a letter; and the entry at a letter position
`k` maps each letter `c` with occurrences strictly after `k` to the list of
those positions in decreasing order (`laterOccs`), omitting the key
otherwise — in particular position `k` itself is never listed. -/
theorem C5_letter_maps_characterization (ph : List Char) :
    (make_letter_maps ph).length = ph.length ∧
    ∀ k, k < ph.length →
      ((make_letter_maps ph).getD k none = none ↔ is_letter (ph.getD k ' ') = false) ∧
      (∀ m, (make_letter_maps ph).getD k none = some m →
        ∀ c, lmapLookup m c =
          if is_letter c = true ∧ laterOccs ph k c ≠ []
          then some (laterOccs ph k c) else none) := by
  obtain ⟨h1, h2⟩ := make_letter_maps_spec ph
  refine ⟨h1, ?_⟩
  intro k hk
  obtain ⟨ha, hb⟩ := h2 k hk
  constructor
  · constructor
    · intro hnone
      cases hch : is_letter (ph.getD k ' ') with
      | false => rfl
      | true =>
        rcases hb hch with ⟨m, hm, _⟩
        rw [hm] at hnone
        exact Option.noConfusion hnone
    · exact ha
  · intro m hm c
    cases hch : is_letter (ph.getD k ' ') with
    | false =>
      rw [ha hch] at hm
      exact Option.noConfusion hm
    | true =>
      rcases hb hch with ⟨m2, hm2, hec⟩
      rw [hm] at hm2
      have heq := Option.some.inj hm2
      subst heq
      exact hec c

/-- Witness for C5 (amended) at phrase `"ab"`, position 0, letter `'b'`. -/
theorem C5_letter_maps_characterization_witness :
    lmapLookup [('b', [1])] 'b' =
      (if is_letter 'b' = true ∧ laterOccs ['a', 'b'] 0 'b' ≠ []
       then some (laterOccs ['a', 'b'] 0 'b') else none) :=
  ((C5_letter_maps_characterization ['a', 'b']).2 0 (by decide)).2 [('b', [1])] (by rfl) 'b'

/-! ### Soundness of the letter maps and the initial map for the search -/

theorem mem_laterOccs {ph : List Char} {k : Nat} {c : Char} {p : Nat}
    (h : p ∈ laterOccs ph k c) : k < p ∧ p < ph.length ∧ ph.getD p ' ' = c := by
  unfold laterOccs at h
  rw [List.mem_reverse] at h
  rcases List.mem_filter.mp h with ⟨hr, hcond⟩
  simp only [Bool.and_eq_true, decide_eq_true_eq, beq_iff_eq] at hcond
  exact ⟨hcond.1, List.mem_range.mp hr, hcond.2⟩

theorem maps_sound (low : List Char) : ∀ index ch l,
    lmapLookup (((make_letter_maps low).getD index none).getD []) ch = some l →
    ∀ jj ∈ l, index < jj ∧ jj < low.length ∧ low.getD jj ' ' = ch := by
  intro index ch l hl jj hjj
  obtain ⟨hlen, hspec⟩ := make_letter_maps_spec low
  by_cases hidx : index < low.length
  · rcases hm : (make_letter_maps low).getD index none with _ | m
    · rw [hm] at hl
      simp [lmapLookup] at hl
    · rw [hm] at hl
      simp only [Option.getD_some] at hl
      obtain ⟨ha, hb⟩ := hspec index hidx
      cases hch : is_letter (low.getD index ' ') with
      | false =>
        rw [ha hch] at hm
        exact Option.noConfusion hm
      | true =>
        rcases hb hch with ⟨m2, hm2, hec⟩
        rw [hm] at hm2
        have heq := Option.some.inj hm2
        subst heq
        rw [hec ch] at hl
        by_cases hcond : is_letter ch = true ∧ laterOccs low index ch ≠ []
        · rw [if_pos hcond] at hl
          have hleq := Option.some.inj hl
          rw [← hleq] at hjj
          exact mem_laterOccs hjj
        · rw [if_neg hcond] at hl
          exact Option.noConfusion hl
  · rw [List.getD_eq_default _ _ (by rw [hlen]; omega)] at hl
    simp [lmapLookup] at hl

theorem mem_allOccs {low : List Char} {c : Char} {i : Nat} (h : i ∈ allOccs low c) :
    i < low.length ∧ low.getD i ' ' = c := by
  unfold allOccs at h
  rcases List.mem_filter.mp h with ⟨hr, hcond⟩
  simp only [beq_iff_eq] at hcond
  exact ⟨List.mem_range.mp hr, hcond⟩

theorem lookup_initial_map_of (low : List Char) (c : Char) (l : List Nat)
    (h : lmapLookup (initial_map_of low) c = some l) : l = allOccs low c := by
  unfold initial_map_of at h
  have hgen : ∀ (L : List Char),
      lmapLookup (L.filterMap (fun c2 =>
        if (allOccs low c2).isEmpty then none else some (c2, allOccs low c2))) c = some l →
      l = allOccs low c := by
    intro L
    induction L with
    | nil =>
      intro h2
      simp [lmapLookup] at h2
    | cons c2 t ih =>
      intro h2
      simp only [List.filterMap_cons] at h2
      by_cases hocc : (allOccs low c2).isEmpty = true
      · rw [if_pos hocc] at h2
        exact ih h2
      · rw [if_neg hocc] at h2
        by_cases hc : c = c2
        · subst hc
          have hb : (c == c) = true := beq_iff_eq.mpr rfl
          simp only [lmapLookup, List.lookup, hb] at h2
          exact (Option.some.inj h2).symm
        · have hb : (c == c2) = false := beq_eq_false_iff_ne.mpr hc
          simp only [lmapLookup, List.lookup, hb] at h2
          exact ih h2
  exact hgen asciiLowercase h

/-! ### The search preserves the static fields and well-formedness -/

theorem pwm_fields (maps : List (Option LMap)) (start : Nat) : ∀ (wrest : List Char)
    (index : Nat) (indices : List Nat) (ws : MatchResults),
    (print_word_matches_aux maps start wrest index indices ws).phrase = ws.phrase ∧
    (print_word_matches_aux maps start wrest index indices ws).maps = ws.maps ∧
    (print_word_matches_aux maps start wrest index indices ws).initial_map =
      ws.initial_map := by
  intro wrest
  induction wrest with
  | nil =>
    intro index indices ws
    exact ⟨rfl, rfl, rfl⟩
  | cons ch wr ih =>
    intro index indices ws
    simp only [print_word_matches_aux]
    cases hlook : lmapLookup ((maps.getD index none).getD []) ch with
    | none => exact ⟨rfl, rfl, rfl⟩
    | some l =>
      refine foldl_preserve
        (fun acc => acc.phrase = ws.phrase ∧ acc.maps = ws.maps ∧
          acc.initial_map = ws.initial_map) _ l ws ?_ ⟨rfl, rfl, rfl⟩
      intro acc i _ hacc
      obtain ⟨h1, h2, h3⟩ := ih i (indices ++ [i]) acc
      exact ⟨h1.trans hacc.1, h2.trans hacc.2.1, h3.trans hacc.2.2⟩

theorem process_word_fields (ws : MatchResults) (w : List Char) :
    (process_word ws w).phrase = ws.phrase ∧ (process_word ws w).maps = ws.maps ∧
    (process_word ws w).initial_map = ws.initial_map := by
  unfold process_word
  cases hlook : lmapLookup ws.initial_map (w.headD ' ') with
  | none => exact ⟨rfl, rfl, rfl⟩
  | some next_indices =>
    refine foldl_preserve
      (fun acc => acc.phrase = ws.phrase ∧ acc.maps = ws.maps ∧
        acc.initial_map = ws.initial_map) _ next_indices ws ?_ ⟨rfl, rfl, rfl⟩
    intro acc i _ hacc
    obtain ⟨h1, h2, h3⟩ := pwm_fields acc.maps i (w.drop 1) i [i] acc
    exact ⟨h1.trans hacc.1, h2.trans hacc.2.1, h3.trans hacc.2.2⟩

theorem add_match_good (low : List Char) (A : List Char → Prop) (ws : MatchResults)
    (indices : List Nat) (index : Nat) (hg : GoodWords low A ws.words)
    (hq : placementOK low A index indices) :
    GoodWords low A (ws.add_match indices index).words := by
  intro i p hp
  unfold MatchResults.add_match at hp
  simp only at hp
  by_cases hlen : index < ws.words.length
  · by_cases hi : i = index
    · subst hi
      unfold storedAt at hp
      rw [getD_set_self _ _ _ _ hlen] at hp
      simp only [Option.getD_some] at hp
      rcases List.mem_append.mp hp with h1 | h2
      · exact hg i p h1
      · rw [List.mem_singleton] at h2
        subst h2
        exact hq
    · unfold storedAt at hp
      rw [getD_set_ne _ _ _ _ _ (fun h => hi h.symm)] at hp
      exact hg i p hp
  · rw [List.set_eq_of_length_le (by omega)] at hp
    exact hg i p hp

theorem pwm_good (low : List Char) (A : List Char → Prop) (maps : List (Option LMap))
    (HM : ∀ index ch l, lmapLookup ((maps.getD index none).getD []) ch = some l →
      ∀ jj ∈ l, index < jj ∧ jj < low.length ∧ low.getD jj ' ' = ch)
    (start : Nat) : ∀ (wrest : List Char) (index : Nat) (indices : List Nat)
    (ws : MatchResults),
    GoodWords low A ws.words →
    indices.head? = some start →
    List.Chain' (· < ·) indices →
    (∀ x ∈ indices, x < low.length) →
    indices.getLast? = some index →
    A (indices.map (fun jj => low.getD jj ' ') ++ wrest) →
    GoodWords low A (print_word_matches_aux maps start wrest index indices ws).words := by
  intro wrest
  induction wrest with
  | nil =>
    intro index indices ws hg hhead hchain hbound _ hA
    simp only [print_word_matches_aux]
    apply add_match_good low A ws indices start hg
    refine ⟨hhead, hchain, hbound, ?_⟩
    simpa using hA
  | cons ch wr ih =>
    intro index indices ws hg hhead hchain hbound hlast hA
    simp only [print_word_matches_aux]
    cases hlook : lmapLookup ((maps.getD index none).getD []) ch with
    | none => exact hg
    | some l =>
      have hjj := HM index ch l hlook
      refine foldl_preserve (fun acc => GoodWords low A acc.words) _ l ws ?_ hg
      intro acc jj hjjmem hacc
      obtain ⟨hj1, hj2, hj3⟩ := hjj jj hjjmem
      apply ih jj (indices ++ [jj]) acc hacc
      · rw [List.head?_append, hhead]
        rfl
      · apply List.chain'_append.mpr
        refine ⟨hchain, List.chain'_singleton jj, ?_⟩
        intro x hx y hy
        rw [hlast] at hx
        have hx2 : index = x := by simpa using hx
        have hy2 : jj = y := by simpa using hy
        subst hx2
        subst hy2
        exact hj1
      · intro x hx
        rcases List.mem_append.mp hx with h1 | h2
        · exact hbound x h1
        · rw [List.mem_singleton] at h2
          subst h2
          exact hj2
      · rw [List.getLast?_concat]
      · rw [List.map_append]
        simp only [List.map_cons, List.map_nil]
        rw [hj3, List.append_assoc, List.singleton_append]
        exact hA

theorem process_word_good (low : List Char) (A : List Char → Prop) (ws : MatchResults)
    (w : List Char) (hinit : ws.initial_map = initial_map_of low)
    (hmaps : ws.maps = make_letter_maps low) (hg : GoodWords low A ws.words)
    (hw : w ≠ []) (hA : A w) :
    GoodWords low A (process_word ws w).words := by
  unfold process_word
  cases hlook : lmapLookup ws.initial_map (w.headD ' ') with
  | none => exact hg
  | some next_indices =>
    rw [hinit] at hlook
    have hocc := lookup_initial_map_of low _ _ hlook
    subst hocc
    refine (foldl_preserve
      (fun acc => GoodWords low A acc.words ∧ acc.maps = make_letter_maps low) _
      (allOccs low (w.headD ' ')) ws ?_ ⟨hg, hmaps⟩).1
    intro acc i himem hacc
    obtain ⟨hi1, hi2⟩ := mem_allOccs himem
    constructor
    · rw [hacc.2]
      apply pwm_good low A (make_letter_maps low) (maps_sound low) i (w.drop 1) i [i]
        acc hacc.1 rfl (List.chain'_singleton i) ?_ rfl ?_
      · intro x hx
        rw [List.mem_singleton] at hx
        subst hx
        exact hi1
      · simp only [List.map_cons, List.map_nil]
        rw [hi2]
        cases w with
        | nil => exact absurd rfl hw
        | cons a t =>
          simpa using hA
    · obtain ⟨_, h2, _⟩ := pwm_fields acc.maps i (w.drop 1) i [i] acc
      exact h2.trans hacc.2

theorem init_storedAt (phrase : List Char) (cnt : Int) (al : Bool) (i : Nat) :
    storedAt (MatchResults.init phrase cnt al).words i = [] := by
  unfold MatchResults.init storedAt
  simp only
  by_cases hi : i < (phrase.map Char.toLower).length
  · rw [List.getD_eq_getElem _ _ (by simpa using hi)]
    rw [List.getElem_map]
    split <;> rfl
  · rw [List.getD_eq_default _ _ (by simpa using (by omega : (phrase.map Char.toLower).length ≤ i))]
    rfl

/-! ### Facts about the trimming pass -/

theorem zip_map_self {α β : Type} (l : List α) (g : α → β) :
    l.zip (l.map g) = l.map (fun x => (x, g x)) := by
  induction l with
  | nil => rfl
  | cons a t ih => simp [ih]

theorem sub_empty_inventory_errors (a : LetterInventory) :
    a.sub (LetterInventory.ofWord []) = Except.error () := by
  have hb : LetterInventory.ofWord [] = ⟨[]⟩ := rfl
  have hgen : ∀ (ls : List Char) (acc : List (Char × Int)), ls ≠ [] →
      LetterInventory.subAux a ⟨[]⟩ ls acc = Except.error () := by
    intro ls acc hne
    cases ls with
    | nil => exact absurd rfl hne
    | cons c rest =>
      have hbget : (⟨[]⟩ : LetterInventory).get c = none := rfl
      cases hga : a.get c <;> simp only [LetterInventory.subAux, hga, hbget]
  rw [hb]
  unfold LetterInventory.sub
  rw [if_neg (by simp)]
  rw [hgen asciiLowercase [] (by simp [asciiLowercase])]
  rfl

theorem trim_aux_mem (inventory : LetterInventory) :
    ∀ (pairs : List (List Char × LetterInventory)) (kept : List (List Char)),
    trim_dictionary_aux inventory pairs = Except.ok kept →
    ∀ w ∈ kept, ∃ wi, (w, wi) ∈ pairs ∧ ∃ d, inventory.sub wi = Except.ok (some d) := by
  intro pairs
  induction pairs with
  | nil =>
    intro kept h w hw
    simp only [trim_dictionary_aux] at h
    have hk := Except.ok.inj h
    subst hk
    exact absurd hw (List.not_mem_nil w)
  | cons pr rest ih =>
    intro kept h w hw
    rcases pr with ⟨w2, wi2⟩
    simp only [trim_dictionary_aux] at h
    cases hsub : inventory.sub wi2 with
    | error e =>
      rw [hsub] at h
      exact Except.noConfusion h
    | ok o =>
      cases o with
      | none =>
        rw [hsub] at h
        rcases ih kept h w hw with ⟨wi, h1, h2⟩
        exact ⟨wi, by simp [h1], h2⟩
      | some d =>
        rw [hsub] at h
        cases hrest : trim_dictionary_aux inventory rest with
        | error e =>
          rw [hrest] at h
          exact Except.noConfusion h
        | ok kept2 =>
          rw [hrest] at h
          simp only [Except.map] at h
          have hk := Except.ok.inj h
          subst hk
          rcases List.mem_cons.mp hw with rfl | hw2
          · exact ⟨wi2, by simp, d, hsub⟩
          · rcases ih kept2 hrest w hw2 with ⟨wi, h1, h2⟩
            exact ⟨wi, by simp [h1], h2⟩

/-! ### C3: every stored placement spells its dictionary word -/

/-- C3: whenever the search pipeline completes, every placement stored in the
`words` table starts at the position it is stored under, consists of strictly
increasing in-range phrase indices, and reading the case-folded phrase at
those indices yields exactly the (case-folded) dictionary word that produced
it, so its length equals that word's length. -/
theorem C3_placements_spell_words (dictionary : List (List Char)) (phrase : List Char)
    (cnt : Int) (al : Bool) (m : MatchResults)
    (hok : print_matches_results dictionary phrase cnt al = Except.ok m) :
    ∀ i, ∀ p ∈ storedAt m.words i,
      p.head? = some i ∧ List.Chain' (· < ·) p ∧ (∀ x ∈ p, x < m.phrase.length) ∧
      ∃ w ∈ dictionary, p.map (fun jj => m.phrase.getD jj ' ') = w.map Char.toLower ∧
        p.length = w.length := by
  unfold print_matches_results at hok
  have hok2 : Except.map
      (fun trimmed => trimmed.foldl process_word (MatchResults.init phrase cnt al))
      (trim_dictionary (phrase.map Char.toLower)
        (dictionary.map (fun w => w.map Char.toLower))
        ((dictionary.map (fun w => w.map Char.toLower)).map LetterInventory.ofWord)) =
      Except.ok m := hok
  clear hok
  cases htrim : trim_dictionary (phrase.map Char.toLower)
      (dictionary.map (fun w => w.map Char.toLower))
      ((dictionary.map (fun w => w.map Char.toLower)).map LetterInventory.ofWord) with
  | error e =>
    rw [htrim] at hok2
    exact Except.noConfusion hok2
  | ok trimmed =>
    rw [htrim] at hok2
    simp only [Except.map] at hok2
    have hm := Except.ok.inj hok2
    subst hm
    set low := phrase.map Char.toLower with hlow
    set m0 := MatchResults.init phrase cnt al with hm0
    set A := fun w => ∃ w0 ∈ dictionary, w = w0.map Char.toLower with hA
    have htri : ∀ w ∈ trimmed, w ∈ dictionary.map (fun w2 => w2.map Char.toLower) ∧
        w ≠ [] := by
      intro w hw
      unfold trim_dictionary at htrim
      rw [zip_map_self] at htrim
      rcases trim_aux_mem _ _ _ htrim w hw with ⟨wi, hmem, d, hsubok⟩
      rcases List.mem_map.mp hmem with ⟨w0, hw0, hpair⟩
      have hweq : w = w0 := congrArg Prod.fst hpair.symm
      have hwieq : wi = LetterInventory.ofWord w0 := congrArg Prod.snd hpair.symm
      subst hweq
      refine ⟨hw0, ?_⟩
      intro hnil
      subst hnil
      rw [hwieq] at hsubok
      rw [sub_empty_inventory_errors] at hsubok
      exact Except.noConfusion hsubok
    have hgood : GoodWords low A (trimmed.foldl process_word m0).words ∧
        (trimmed.foldl process_word m0).phrase = low := by
      refine foldl_preserve
        (fun acc => (GoodWords low A acc.words ∧ acc.phrase = low) ∧
          acc.maps = make_letter_maps low ∧ acc.initial_map = initial_map_of low)
        _ trimmed m0 ?_ ⟨⟨?_, rfl⟩, rfl, rfl⟩ |>.1
      · intro acc w hwmem hacc
        obtain ⟨⟨hg, hph⟩, hmaps, hini⟩ := hacc
        obtain ⟨hwdict, hwne⟩ := htri w hwmem
        obtain ⟨h1, h2, h3⟩ := process_word_fields acc w
        refine ⟨⟨?_, h1.trans hph⟩, h2.trans hmaps, h3.trans hini⟩
        apply process_word_good low A acc w hini hmaps hg hwne
        rcases List.mem_map.mp hwdict with ⟨w0, hw0, hw0eq⟩
        exact ⟨w0, hw0, hw0eq.symm⟩
      · intro i p hp
        rw [init_storedAt] at hp
        exact absurd hp (List.not_mem_nil p)
    obtain ⟨hgw, hph⟩ := hgood
    intro i p hp
    obtain ⟨h1, h2, h3, h4⟩ := hgw i p hp
    rw [hph]
    refine ⟨h1, h2, h3, ?_⟩
    rcases h4 with ⟨w0, hw0, hspell⟩
    refine ⟨w0, hw0, hspell, ?_⟩
    have := congrArg List.length hspell
    simpa using this

/-- Witness for C3: the placement `[0]` stored at position 0 of the `"a a"`
example spells the dictionary word `"a"`. -/
theorem C3_placements_spell_words_witness :
    ([0] : List Nat).head? = some 0 ∧ List.Chain' (· < ·) ([0] : List Nat) ∧
    (∀ x ∈ ([0] : List Nat), x < aaResults.phrase.length) ∧
    ∃ w ∈ [['a']], ([0] : List Nat).map (fun jj => aaResults.phrase.getD jj ' ') =
      w.map Char.toLower ∧ ([0] : List Nat).length = w.length :=
  C3_placements_spell_words [['a']] ['a', ' ', 'a'] 2 false aaResults (by rfl) 0 [0]
    (by decide)

/-! ### Letter counting: a trimmed-away word has no placement -/

theorem map_getD_range (low : List Char) :
    (List.range low.length).map (fun jj => low.getD jj ' ') = low := by
  apply List.ext_getElem
  · simp
  · intro i h1 h2
    simp only [List.getElem_map, List.getElem_range]
    rw [List.getD_eq_getElem _ _ h2]

theorem chain_sublist_range' : ∀ (p : List Nat) (a n : Nat), List.Chain' (· < ·) p →
    (∀ x ∈ p, a ≤ x ∧ x < n) → p.Sublist (List.range' a (n - a)) := by
  intro p
  induction p with
  | nil =>
    intro a n _ _
    exact List.nil_sublist _
  | cons j t ih =>
    intro a n hch hb
    obtain ⟨haj, hjn⟩ := hb j (by simp)
    have hpw := List.chain'_iff_pairwise.mp hch
    rcases List.pairwise_cons.mp hpw with ⟨hjx, hpt⟩
    have hch2 : List.Chain' (· < ·) t := List.chain'_iff_pairwise.mpr hpt
    have hsub := ih (j + 1) n hch2
      (fun x hx => ⟨hjx x hx, (hb x (by simp [hx])).2⟩)
    have hsplit : List.range' a (n - a) = List.range' a (j - a) ++ List.range' j (n - j) := by
      have h1 := List.range'_append a (j - a) (n - j) 1
      rw [show a + 1 * (j - a) = j by omega, show (n - j) + (j - a) = n - a by omega] at h1
      exact h1.symm
    have hsplit2 : List.range' j (n - j) = j :: List.range' (j + 1) (n - (j + 1)) := by
      rw [show n - j = (n - (j + 1)) + 1 by omega, List.range'_succ]
    rw [hsplit, hsplit2]
    exact (hsub.cons₂ j).trans (List.sublist_append_right _ _)

theorem no_spelling_of_deficiency (low w : List Char) (c : Char)
    (hdef : List.count c low < List.count c w) :
    ∀ p : List Nat, List.Chain' (· < ·) p → (∀ x ∈ p, x < low.length) →
      p.map (fun jj => low.getD jj ' ') ≠ w := by
  intro p hch hb hspell
  have h1 : List.count c w = List.countP (fun jj => low.getD jj ' ' == c) p := by
    rw [← hspell, List.count_eq_countP, List.countP_map]
    rfl
  have hsubl : p.Sublist (List.range low.length) := by
    have := chain_sublist_range' p 0 low.length hch (fun x hx => ⟨Nat.zero_le x, hb x hx⟩)
    simpa [List.range_eq_range'] using this
  have h2 : List.countP (fun jj => low.getD jj ' ' == c) p ≤
      List.countP (fun jj => low.getD jj ' ' == c) (List.range low.length) :=
    hsubl.countP_le _
  have h3 : List.countP (fun jj => low.getD jj ' ' == c) (List.range low.length) =
      List.count c low := by
    rw [List.count_eq_countP]
    calc List.countP (fun jj => low.getD jj ' ' == c) (List.range low.length)
        = List.countP (fun x => x == c)
            ((List.range low.length).map (fun jj => low.getD jj ' ')) := by
          rw [List.countP_map]
          rfl
      _ = List.countP (fun x => x == c) low := by rw [map_getD_range]
  omega

theorem lookup_map_self {β : Type} (h : Char → β) : ∀ (L : List Char) (c : Char),
    c ∈ L → List.lookup c (L.map (fun c2 => (c2, h c2))) = some (h c) := by
  intro L
  induction L with
  | nil =>
    intro c hc
    exact absurd hc (List.not_mem_nil c)
  | cons c2 t ih =>
    intro c hc
    by_cases hcc : c = c2
    · subst hcc
      simp [List.lookup]
    · have hb : (c == c2) = false := beq_eq_false_iff_ne.mpr hcc
      simp only [List.map_cons, List.lookup, hb]
      refine ih c ?_
      rcases List.mem_cons.mp hc with h1 | h1
      · exact absurd h1 hcc
      · exact h1

theorem ofWord_get (w : List Char) (hw : w ≠ []) (c : Char) (hc : c ∈ asciiLowercase) :
    (LetterInventory.ofWord w).get c = some ((w.count c : Int)) := by
  unfold LetterInventory.ofWord LetterInventory.get
  rw [if_neg hw]
  exact lookup_map_self (fun c => ((List.count c w : Int))) asciiLowercase c hc

theorem sub_no_error (low w : List Char) (hw : w ≠ []) :
    ∃ r, (LetterInventory.ofWord low).sub (LetterInventory.ofWord w) = Except.ok r := by
  by_cases hlow : low = []
  · subst hlow
    refine ⟨none, ?_⟩
    unfold LetterInventory.sub
    rw [if_pos ?_]
    unfold LetterInventory.ofWord
    rw [if_neg hw, if_pos rfl]
    simp [asciiLowercase]
  · have hget : ∀ c ∈ asciiLowercase,
        ((LetterInventory.ofWord low).get c).isSome = true ∧
        ((LetterInventory.ofWord w).get c).isSome = true := by
      intro c hc
      rw [ofWord_get low hlow c hc, ofWord_get w hw c hc]
      exact ⟨rfl, rfl⟩
    have hgen : ∀ (ls : List Char) (acc : List (Char × Int)),
        (∀ c ∈ ls, ((LetterInventory.ofWord low).get c).isSome = true ∧
          ((LetterInventory.ofWord w).get c).isSome = true) →
        ∃ r, LetterInventory.subAux (LetterInventory.ofWord low)
          (LetterInventory.ofWord w) ls acc = Except.ok r := by
      intro ls
      induction ls with
      | nil =>
        intro acc _
        exact ⟨some acc, rfl⟩
      | cons c rest ih =>
        intro acc hall
        obtain ⟨h1, h2⟩ := hall c (by simp)
        rcases Option.isSome_iff_exists.mp h1 with ⟨x, hx⟩
        rcases Option.isSome_iff_exists.mp h2 with ⟨y, hy⟩
        simp only [LetterInventory.subAux, hx, hy]
        by_cases hneg : x - y < 0
        · rw [if_pos hneg]
          exact ⟨none, rfl⟩
        · rw [if_neg hneg]
          exact ih _ (fun c2 hc2 => hall c2 (by simp [hc2]))
    rcases hgen asciiLowercase [] hget with ⟨r, hr⟩
    have hlen : ¬((LetterInventory.ofWord w).letters.length >
        (LetterInventory.ofWord low).letters.length) := by
      unfold LetterInventory.ofWord
      rw [if_neg hw, if_neg hlow]
      simp
    unfold LetterInventory.sub
    rw [if_neg hlen, hr]
    exact ⟨Option.map LetterInventory.mk r, rfl⟩

theorem subAux_deficiency (a b : LetterInventory) : ∀ (ls : List Char)
    (acc : List (Char × Int)),
    LetterInventory.subAux a b ls acc = Except.ok none →
    ∃ c ∈ ls, ∃ x y, a.get c = some x ∧ b.get c = some y ∧ x - y < 0 := by
  intro ls
  induction ls with
  | nil =>
    intro acc h
    simp only [LetterInventory.subAux] at h
    exact Option.noConfusion (Except.ok.inj h)
  | cons c rest ih =>
    intro acc h
    simp only [LetterInventory.subAux] at h
    cases hx : a.get c with
    | none =>
      rw [hx] at h
      exact Except.noConfusion h
    | some x =>
      cases hy : b.get c with
      | none =>
        rw [hx, hy] at h
        exact Except.noConfusion h
      | some y =>
        rw [hx, hy] at h
        have h2 : (if x - y < 0 then Except.ok none
            else LetterInventory.subAux a b rest (acc ++ [(c, x - y)])) =
            Except.ok none := h
        by_cases hneg : x - y < 0
        · exact ⟨c, by simp, x, y, hx, hy, hneg⟩
        · rw [if_neg hneg] at h2
          rcases ih _ h2 with ⟨c2, hc2, x2, y2, hx2, hy2, hneg2⟩
          exact ⟨c2, by simp [hc2], x2, y2, hx2, hy2, hneg2⟩

theorem sub_none_deficiency (low w : List Char) (hlow : low ≠ []) (hw : w ≠ [])
    (h : (LetterInventory.ofWord low).sub (LetterInventory.ofWord w) = Except.ok none) :
    ∃ c, List.count c low < List.count c w := by
  unfold LetterInventory.sub at h
  have hlen : ¬((LetterInventory.ofWord w).letters.length >
      (LetterInventory.ofWord low).letters.length) := by
    unfold LetterInventory.ofWord
    rw [if_neg hw, if_neg hlow]
    simp
  rw [if_neg hlen] at h
  cases hs : LetterInventory.subAux (LetterInventory.ofWord low)
      (LetterInventory.ofWord w) asciiLowercase [] with
  | error e =>
    rw [hs] at h
    exact Except.noConfusion h
  | ok o =>
    rw [hs] at h
    simp only [Except.map] at h
    have ho := Except.ok.inj h
    cases o with
    | some l => exact Option.noConfusion ho
    | none =>
      rcases subAux_deficiency _ _ asciiLowercase [] hs with ⟨c, hc, x, y, hgx, hgy, hneg⟩
      rw [ofWord_get low hlow c hc] at hgx
      rw [ofWord_get w hw c hc] at hgy
      have hx2 := Option.some.inj hgx
      have hy2 := Option.some.inj hgy
      refine ⟨c, ?_⟩
      omega

theorem foldl_fix_of {α β : Type} (P : α → Prop) (step : α → β → α) :
    ∀ (l : List β) (init : α), P init →
    (∀ acc x, x ∈ l → P acc → step acc x = acc) → l.foldl step init = init := by
  intro l
  induction l with
  | nil =>
    intro init _ _
    rfl
  | cons x t ih =>
    intro init hP h
    rw [List.foldl_cons, h init x (by simp) hP]
    exact ih init hP (fun acc y hy hacc => h acc y (by simp [hy]) hacc)

theorem pwm_no_complete (low : List Char) (maps : List (Option LMap))
    (HM : ∀ index ch l, lmapLookup ((maps.getD index none).getD []) ch = some l →
      ∀ jj ∈ l, index < jj ∧ jj < low.length ∧ low.getD jj ' ' = ch)
    (start : Nat) : ∀ (wrest : List Char) (index : Nat) (indices : List Nat)
    (ws : MatchResults),
    (∀ js : List Nat, List.Chain' (· < ·) js →
      (∀ x ∈ js, index < x ∧ x < low.length) →
      js.map (fun jj => low.getD jj ' ') ≠ wrest) →
    print_word_matches_aux maps start wrest index indices ws = ws := by
  intro wrest
  induction wrest with
  | nil =>
    intro index indices ws h
    exact absurd rfl (h [] List.chain'_nil (fun x hx => absurd hx (List.not_mem_nil x)))
  | cons ch wr ih =>
    intro index indices ws h
    simp only [print_word_matches_aux]
    cases hlook : lmapLookup ((maps.getD index none).getD []) ch with
    | none => rfl
    | some l =>
      apply foldl_fix
      intro acc i hi
      have hji := HM index ch l hlook i hi
      apply ih i (indices ++ [i]) acc
      intro js hch hb hspell
      refine h (i :: js) ?_ ?_ ?_
      · rw [List.chain'_cons']
        refine ⟨?_, hch⟩
        intro b hb2
        have hbmem : b ∈ js := by
          cases js with
          | nil => simp at hb2
          | cons j0 t =>
            simp only [List.head?_cons, Option.mem_some_iff] at hb2
            simp [hb2]
        exact (hb b hbmem).1
      · intro x hx
        rcases List.mem_cons.mp hx with h1 | h1
        · subst h1
          exact ⟨hji.1, hji.2.1⟩
        · exact ⟨Nat.lt_trans hji.1 (hb x h1).1, (hb x h1).2⟩
      · simp only [List.map_cons]
        rw [hji.2.2, hspell]

theorem no_placement_process_word (low : List Char) (ws : MatchResults)
    (hm : ws.maps = make_letter_maps low)
    (him : ws.initial_map = initial_map_of low)
    (w : List Char) (hw : w ≠ [])
    (hno : ∀ p : List Nat, List.Chain' (· < ·) p → (∀ x ∈ p, x < low.length) →
      p.map (fun jj => low.getD jj ' ') ≠ w) :
    process_word ws w = ws := by
  unfold process_word
  cases hlook : lmapLookup ws.initial_map (w.headD ' ') with
  | none => rfl
  | some next_indices =>
    rw [him] at hlook
    have hall := lookup_initial_map_of low (w.headD ' ') next_indices hlook
    apply foldl_fix_of (fun acc => acc.maps = make_letter_maps low)
    · exact hm
    · intro acc i hi hacc
      rw [hall] at hi
      have hocc := mem_allOccs hi
      rw [hacc]
      apply pwm_no_complete low (make_letter_maps low) (maps_sound low) i (w.drop 1)
        i [i] acc
      intro js hch hb hspell
      cases w with
      | nil => exact hw rfl
      | cons ch wtail =>
        refine hno (i :: js) ?_ ?_ ?_
        · rw [List.chain'_cons']
          refine ⟨?_, hch⟩
          intro b hb2
          have hbmem : b ∈ js := by
            cases js with
            | nil => simp at hb2
            | cons j0 t =>
              simp only [List.head?_cons, Option.mem_some_iff] at hb2
              simp [hb2]
          exact (hb b hbmem).1
        · intro x hx
          rcases List.mem_cons.mp hx with h1 | h1
          · subst h1
            exact hocc.1
          · exact (hb x h1).2
        · simp only [List.map_cons]
          rw [hocc.2]
          simp only [List.headD_cons]
          rw [show (ch :: wtail).drop 1 = wtail from rfl] at hspell
          rw [hspell]

theorem removed_no_spelling (low w : List Char) (hw : w ≠ [])
    (h : (LetterInventory.ofWord low).sub (LetterInventory.ofWord w) = Except.ok none) :
    ∀ p : List Nat, List.Chain' (· < ·) p → (∀ x ∈ p, x < low.length) →
      p.map (fun jj => low.getD jj ' ') ≠ w := by
  by_cases hlow : low = []
  · subst hlow
    intro p hch hb hsp
    cases p with
    | nil =>
      rw [← hsp] at hw
      exact hw rfl
    | cons x t => exact absurd (hb x (by simp)) (by simp)
  · rcases sub_none_deficiency low w hlow hw h with ⟨c, hdef⟩
    exact fun p hch hb => no_spelling_of_deficiency low w c hdef p hch hb

theorem trim_fold (low : List Char) : ∀ (dict2 : List (List Char)) (m : MatchResults),
    m.phrase = low → m.maps = make_letter_maps low →
    m.initial_map = initial_map_of low → (∀ w ∈ dict2, w ≠ []) →
    ∃ kept, trim_dictionary_aux (LetterInventory.ofWord low)
        (dict2.zip (dict2.map LetterInventory.ofWord)) = Except.ok kept ∧
      kept.foldl process_word m = dict2.foldl process_word m := by
  intro dict2
  induction dict2 with
  | nil =>
    intro m _ _ _ _
    exact ⟨[], rfl, rfl⟩
  | cons w t ih =>
    intro m hph hmaps him hne
    have hw : w ≠ [] := hne w (by simp)
    have hnet : ∀ w2 ∈ t, w2 ≠ [] := fun w2 hw2 => hne w2 (by simp [hw2])
    simp only [List.map_cons, List.zip_cons_cons, trim_dictionary_aux]
    rcases sub_no_error low w hw with ⟨r, hr⟩
    rw [hr]
    cases r with
    | none =>
      have hstep : process_word m w = m :=
        no_placement_process_word low m hmaps him w hw
          (removed_no_spelling low w hw hr)
      rcases ih m hph hmaps him hnet with ⟨kept, hkept, hfold⟩
      refine ⟨kept, hkept, ?_⟩
      rw [List.foldl_cons, hstep, hfold]
    | some l =>
      have hf := process_word_fields m w
      rcases ih (process_word m w) (hf.1.trans hph) (hf.2.1.trans hmaps)
          (hf.2.2.trans him) hnet with ⟨kept, hkept, hfold⟩
      refine ⟨w :: kept, ?_, ?_⟩
      · show Except.map (fun l2 => w :: l2) (trim_dictionary_aux
          (LetterInventory.ofWord low) (t.zip (t.map LetterInventory.ofWord))) =
          Except.ok (w :: kept)
        rw [hkept]
        rfl
      · rw [List.foldl_cons, List.foldl_cons, hfold]

/-- C10: for a dictionary of non-empty words, pre-filtering with
`trim_dictionary` does not change the search result: every word it removes has
no valid placement in the phrase, so the placement search over the trimmed
dictionary (what `print_matches` runs, including the trim's own error paths)
succeeds and produces exactly the state the search over the full, untrimmed
dictionary produces. -/
theorem C10_trim_equivalent (dictionary : List (List Char)) (phrase : List Char)
    (cnt : Int) (al : Bool) (hne : ∀ w ∈ dictionary, w ≠ []) :
    print_matches_results dictionary phrase cnt al =
      Except.ok (find_combinations_full dictionary phrase cnt al) := by
  show (trim_dictionary (MatchResults.init phrase cnt al).phrase
      (dictionary.map (fun w => w.map Char.toLower))
      ((dictionary.map (fun w => w.map Char.toLower)).map LetterInventory.ofWord)).map
      (fun trimmed => trimmed.foldl process_word (MatchResults.init phrase cnt al)) =
    Except.ok ((dictionary.map (fun w => w.map Char.toLower)).foldl process_word
      (MatchResults.init phrase cnt al))
  have hne2 : ∀ w ∈ dictionary.map (fun w => w.map Char.toLower), w ≠ [] := by
    intro w hwm
    rcases List.mem_map.mp hwm with ⟨w0, hw0, hmap⟩
    intro hnil
    rw [← hmap] at hnil
    exact hne w0 hw0 (List.map_eq_nil.mp hnil)
  rcases trim_fold (phrase.map Char.toLower)
      (dictionary.map (fun w => w.map Char.toLower))
      (MatchResults.init phrase cnt al) rfl rfl rfl hne2 with ⟨kept, hkept, hfold⟩
  unfold trim_dictionary
  have hph : (MatchResults.init phrase cnt al).phrase = phrase.map Char.toLower := rfl
  rw [hph, hkept]
  simp only [Except.map]
  rw [hfold]

/-- Sanity instance for C10 at a concrete input. -/
theorem C10_trim_equivalent_witness :
    (∀ w ∈ [['a']], w ≠ ([] : List Char)) ∧
    print_matches_results [['a']] ['a'] 0 true =
      Except.ok (find_combinations_full [['a']] ['a'] 0 true) :=
  ⟨by decide, C10_trim_equivalent [['a']] ['a'] 0 true (by decide)⟩
